import Mathlib

/-!
# flow.c : a declarative process-pipeline executor

A shallow embedding of `src/homework02/flow.c`.

* A C string is a `List Char`: one `Char` per `char`, the list holding the
  characters before the terminating NUL.  A raw buffer (a line read by `fgets`,
  an argument of `strdup`) may still hold a NUL; `cstr` cuts it there.
* The registry is the list of the first `component_count` entries of the global
  array `components`; the parse cursor `current` is an index into it.
* Processes are modelled by the sequence of system-level actions they perform
  (`Act`), a forked child carrying its own sequence.
-/

namespace Flow

/-! ## Constants -/

def MAX_NAME : Nat := 256
def MAX_COMMAND : Nat := 1024
def MAX_COMPONENTS : Nat := 100
def MAX_ARGS : Nat := 64
def MAX_PARTS : Nat := 10

/-! ## C strings -/

/-- The NUL character, terminator of every C string. -/
def NUL : Char := Char.ofNat 0

/-- The C string that starts a buffer: its characters up to the first NUL. -/
def cstr (buf : List Char) : List Char := buf.takeWhile (fun c => c != NUL)

/-- What `strncpy(dst, src, n); dst[n] = 0` leaves in `dst`: at most `n` characters of `src`. -/
def strncpy (src : List Char) (n : Nat) : List Char := src.take n

/-! ## Tokenizer (`parse_command`) -/

/-- The test `*ptr == ' ' || *ptr == '\t'`. -/
def isBlank (c : Char) : Bool := c == ' ' || c == '\t'

/-- The test `*ptr == '\'' || *ptr == '\"'`. -/
def isQuote (c : Char) : Bool := c == '\'' || c == '"'

/-- The outer `while (*ptr && argc < MAX_ARGS - 1)` loop of `parse_command`.
The first argument is `MAX_ARGS - 1 - argc`, the number of free slots of `args`;
the second is the text at `ptr`.  The result is the tokens stored from `argc` on. -/
def parse_args : Nat → List Char → List (List Char)
  | 0, _ => []
  | slots + 1, ptr =>
    -- skip whitespace; an empty remainder leaves the loop
    match ptr.dropWhile isBlank with
    | [] => []
    | c :: rest =>
      if isQuote c then
        -- token: up to the closing quote, which is skipped when present
        let tok := rest.takeWhile (fun d => d != c)
        let after := (rest.dropWhile (fun d => d != c)).drop 1
        tok :: parse_args slots after
      else
        -- token: up to the next blank, which is skipped when present
        let tok := (c :: rest).takeWhile (fun d => !isBlank d)
        let after := ((c :: rest).dropWhile (fun d => !isBlank d)).drop 1
        tok :: parse_args slots after

/-- The function `parse_command`: the argument vector of a command string, without its final NULL. -/
def parse_command (command : List Char) : List (List Char) :=
  parse_args (MAX_ARGS - 1) (cstr command)

/-- The token a round of the loop stores, `c :: rest` being the text at `start`: up to the
closing quote when `c` is a quote, up to the next blank otherwise. -/
def token_of (c : Char) (rest : List Char) : List Char :=
  if isQuote c then rest.takeWhile (fun d => d != c)
  else (c :: rest).takeWhile (fun d => !isBlank d)

/-- The text at `ptr` when that round ends: the closing quote, or the blank, is skipped. -/
def after_token (c : Char) (rest : List Char) : List Char :=
  if isQuote c then (rest.dropWhile (fun d => d != c)).drop 1
  else ((c :: rest).dropWhile (fun d => !isBlank d)).drop 1

/-- The values the loop of `parse_command` gives to `start` before it looks for a quote: for
each token stored, the text from its first character (an opening quote included) to the end
of the string.  Arguments as for `parse_args`. -/
def token_starts : Nat → List Char → List (List Char)
  | 0, _ => []
  | slots + 1, ptr =>
    match ptr.dropWhile isBlank with
    | [] => []
    | c :: rest => (c :: rest) :: token_starts slots (after_token c rest)

/-- Tokenizing without a limit: every token takes at least one character, so as many slots as
the string has characters are never used up. -/
def tokenize_unlimited (s : List Char) : List (List Char) := parse_args s.length s

/-! ### Written words (for the round-trip property) -/

/-- A word as it is written in a command string: bare, or enclosed in a quote character. -/
inductive Word where
  | bare (w : List Char)
  | quoted (q : Char) (w : List Char)
  deriving DecidableEq, Repr

/-- The characters a word is written with. -/
def Word.text : Word → List Char
  | .bare w => w
  | .quoted q w => q :: (w ++ [q])

/-- The word itself, enclosing quotes stripped. -/
def Word.value : Word → List Char
  | .bare w => w
  | .quoted _ w => w

/-- Well-formed words: a bare word is non-empty, has no blank and does not start with a quote;
a quoted word does not contain its own quote character.  No word contains NUL. -/
def Word.ok : Word → Bool
  | .bare w => !w.isEmpty && w.all (fun c => !isBlank c && c != NUL)
      && (match w with | [] => true | c :: _ => !isQuote c)
  | .quoted q w => isQuote q && w.all (fun c => c != q && c != NUL)

/-- Words written in order, each followed by its separator. -/
def render : List (Word × List Char) → List Char
  | [] => []
  | (w, sep) :: r => w.text ++ (sep ++ render r)

/-- Separators consist of blanks, and only the one after the last word may be empty. -/
def sepsOk : List (Word × List Char) → Bool
  | [] => true
  | [(_, sep)] => sep.all isBlank
  | (_, sep) :: r => sep.all isBlank && !sep.isEmpty && sepsOk r

/-! ## Data model -/

/-- The enum `ComponentType`. -/
inductive ComponentType where
  | TYPE_NODE
  | TYPE_PIPE
  | TYPE_CONCATENATE
  | TYPE_STDERR
  | TYPE_FILE
  deriving DecidableEq, Repr

/-- The struct `Node`. -/
structure Node where
  name : List Char := []
  command : List Char := []
  deriving DecidableEq, Repr

/-- The struct `Pipe`; `from_` and `to_` are the fields `from` and `to`. -/
structure Pipe where
  name : List Char := []
  from_ : List Char := []
  to_ : List Char := []
  deriving DecidableEq, Repr

/-- The struct `Concatenate`; `part_names` has `MAX_PARTS` slots. -/
structure Concatenate where
  name : List Char := []
  parts : Int := 0
  part_names : List (List Char) := List.replicate MAX_PARTS []
  deriving DecidableEq, Repr

/-- The struct `Stderr`; `from_` is the field `from`. -/
structure Stderr where
  name : List Char := []
  from_ : List Char := []
  deriving DecidableEq, Repr

/-- The struct `File`. -/
structure File where
  name : List Char := []
  filename : List Char := []
  deriving DecidableEq, Repr

/-- The struct `Component`: the tag `type` together with the member of the union `data` it
selects.  A slot of the zero-initialised global array is written once, by the line that creates
the component, so the fields not yet assigned are empty strings and zero. -/
inductive Component where
  | node (n : Node)
  | pipe (p : Pipe)
  | concat (c : Concatenate)
  | stderr (s : Stderr)
  | file (f : File)
  deriving DecidableEq, Repr

/-- The field `type` of a component. -/
def Component.type : Component → ComponentType
  | .node _ => .TYPE_NODE
  | .pipe _ => .TYPE_PIPE
  | .concat _ => .TYPE_CONCATENATE
  | .stderr _ => .TYPE_STDERR
  | .file _ => .TYPE_FILE

/-- The name of a component, whichever member of the union holds it. -/
def Component.name : Component → List Char
  | .node n => n.name
  | .pipe p => p.name
  | .concat c => c.name
  | .stderr s => s.name
  | .file f => f.name

/-! ## Resolver (`find_component`) -/

/-- The function `find_component` over the registry `components[0 .. component_count)`:
the first entry whose name compares equal under `strcmp`, or `none` for `NULL`. -/
def find_component : List Component → List Char → Option Component
  | [], _ => none
  | comp :: rest, name =>
    match comp with
    | .node n => if n.name = name then some comp else find_component rest name
    | .pipe p => if p.name = name then some comp else find_component rest name
    | .concat c => if c.name = name then some comp else find_component rest name
    | .stderr s => if s.name = name then some comp else find_component rest name
    | .file f => if f.name = name then some comp else find_component rest name

/-! ## Parser (`parse_flow_file`) -/

/-- The C library test `isspace` in the C locale. -/
def isspace (c : Char) : Bool := c == ' ' || (9 ≤ c.toNat && c.toNat ≤ 13)

/-- The C library test `isdigit`. -/
def isdigit (c : Char) : Bool := 48 ≤ c.toNat && c.toNat ≤ 57

/-- The number written by a run of decimal digits. -/
def digits_value (ds : List Char) : Nat := ds.foldl (fun acc d => acc * 10 + (d.toNat - 48)) 0

/-- The C library function `strtol(s, NULL, 10)` with a 64-bit `long`: optional white space,
an optional sign, then the longest run of digits; the result saturates at the range of `long`. -/
def strtol (s : List Char) : Int :=
  let s1 := s.dropWhile isspace
  let neg := s1.head? == some '-'
  let s2 := if s1.head? == some '-' || s1.head? == some '+' then s1.drop 1 else s1
  let n : Int := digits_value (s2.takeWhile isdigit)
  let v : Int := if neg then -n else n
  max (-(2 ^ 63)) (min v (2 ^ 63 - 1))

/-- The C library function `atoi` as glibc defines it, `(int) strtol(s, NULL, 10)`, with a
32-bit two's complement `int`.  Where the number fits an `int` this is the ISO C result. -/
def atoi (s : List Char) : Int := (strtol s + 2 ^ 31) % 2 ^ 32 - 2 ^ 31

/-- The parser's state: the registry built so far (`components[0 .. component_count)`) and the
cursor `current`, the index of the component it points to. -/
structure ParseState where
  components : List Component := []
  current : Option Nat := none
  deriving DecidableEq, Repr

/-- The component `current` points to, `none` for `NULL`. -/
def ParseState.cursor (st : ParseState) : Option Component :=
  st.current.bind (fun i => st.components[i]?)

/-- A store through the pointer `current`. -/
def ParseState.store (st : ParseState) (c : Component) : ParseState :=
  match st.current with
  | none => st
  | some i => { st with components := st.components.set i c }

/-- The statement `current = &components[component_count++]` followed by the stores that set
the type and the name: `none` when the array is full and the store would fall outside it. -/
def new_component (st : ParseState) (c : Component) : Option ParseState :=
  if st.components.length < MAX_COMPONENTS then
    some { components := st.components ++ [c], current := some st.components.length }
  else none

/-- The `if ... else if` chain of `parse_flow_file` on one `key`/`value` pair. -/
def apply_key (st : ParseState) (key value : List Char) : Option ParseState :=
  if key = "node".toList then
    new_component st (.node { name := strncpy value (MAX_NAME - 1) })
  else if key = "command".toList then
    match st.cursor with
    | some (.node n) => some (st.store (.node { n with command := strncpy value (MAX_COMMAND - 1) }))
    | _ => some st
  else if key = "pipe".toList then
    new_component st (.pipe { name := strncpy value (MAX_NAME - 1) })
  else if key = "from".toList then
    match st.cursor with
    | some (.pipe p) => some (st.store (.pipe { p with from_ := strncpy value (MAX_NAME - 1) }))
    | some (.stderr e) => some (st.store (.stderr { e with from_ := strncpy value (MAX_NAME - 1) }))
    | _ => some st
  else if key = "to".toList then
    match st.cursor with
    | some (.pipe p) => some (st.store (.pipe { p with to_ := strncpy value (MAX_NAME - 1) }))
    | _ => some st
  else if key = "concatenate".toList then
    new_component st (.concat { name := strncpy value (MAX_NAME - 1) })
  else if key = "parts".toList then
    match st.cursor with
    | some (.concat c) => some (st.store (.concat { c with parts := atoi value }))
    | _ => some st
  else if key.take 5 = "part_".toList then
    match st.cursor with
    | some (.concat c) =>
      let part_num := atoi (key.drop 5)
      if 0 ≤ part_num ∧ part_num < MAX_PARTS then
        some (st.store (.concat { c with
          part_names := c.part_names.set part_num.toNat (strncpy value (MAX_NAME - 1)) }))
      else some st
    | _ => some st
  else if key = "stderr".toList then
    new_component st (.stderr { name := strncpy value (MAX_NAME - 1) })
  else if key = "file".toList then
    new_component st (.file { name := strncpy value (MAX_NAME - 1) })
  else if key = "name".toList then
    match st.cursor with
    | some (.file f) => some (st.store (.file { f with filename := strncpy value (MAX_NAME - 1) }))
    | _ => some st
  else some st

/-- The line in the buffer after `line[strcspn(line, "\n")] = 0`. -/
def line_text (buf : List Char) : List Char := (cstr buf).takeWhile (fun c => c != '\n')

/-- The string `key`: the line up to its first `=`. -/
def line_key (buf : List Char) : List Char := (line_text buf).takeWhile (fun c => c != '=')

/-- The string `value`: the line after its first `=`. -/
def line_value (buf : List Char) : List Char :=
  ((line_text buf).dropWhile (fun c => c != '=')).drop 1

/-- The body of the `while (fgets ...)` loop on one buffer `buf` as `fgets` filled it. -/
def process_line (st : ParseState) (buf : List Char) : Option ParseState :=
  if (line_text buf).isEmpty then some st
  else if !(line_text buf).contains '=' then some st
  else apply_key st (line_key buf) (line_value buf)

/-- One call `fgets(line, room + 1, fp)` on the unread part of the file: the characters read,
at most `room` and none after a newline, and the part still unread. -/
def fgets : Nat → List Char → List Char × List Char
  | 0, input => ([], input)
  | _ + 1, [] => ([], [])
  | room + 1, c :: rest =>
    if c == '\n' then ([c], rest)
    else ((fgets room rest).1.cons c, (fgets room rest).2)

/-- The loop `while (fgets(line, sizeof(line), fp))` with `char line[1024]`.  Every round
reads at least one character, so `fuel` rounds are enough for `fuel` unread characters. -/
def parse_lines : Nat → ParseState → List Char → Option ParseState
  | 0, st, _ => some st
  | fuel + 1, st, input =>
    match fgets 1023 input with
    | ([], _) => some st
    | (buf, rest) => (process_line st buf).bind (fun st1 => parse_lines fuel st1 rest)

/-- The function `parse_flow_file` on the content of the file it opened. -/
def parse_flow_text (text : List Char) : Option ParseState :=
  parse_lines text.length {} text

/-! ## Processes and system calls -/

/-- A descriptor table: the open descriptors of a process, each with the open file
description (a pipe end, a terminal, a file) it refers to. -/
abbrev FdTable := List (Nat × Nat)

def STDIN_FILENO : Nat := 0
def STDOUT_FILENO : Nat := 1
def STDERR_FILENO : Nat := 2

/-- The open file description behind a descriptor, `none` when the descriptor is closed. -/
def fd_get (t : FdTable) (fd : Nat) : Option Nat :=
  (t.find? (fun e => e.1 == fd)).map (fun e => e.2)

/-- The system call `close(fd)`. -/
def sys_close (t : FdTable) (fd : Nat) : FdTable := t.filter (fun e => e.1 != fd)

/-- The system call `dup2(oldfd, newfd)`: nothing changes when `oldfd` is closed (`EBADF`) or
equals `newfd`; otherwise `newfd` is closed first and then refers to what `oldfd` refers to. -/
def sys_dup2 (t : FdTable) (oldfd newfd : Nat) : FdTable :=
  match fd_get t oldfd with
  | none => t
  | some d => if oldfd = newfd then t else (newfd, d) :: sys_close t newfd

/-- The lowest descriptor that is not open, the one the kernel hands out next. -/
def lowest_free (t : FdTable) : Option Nat :=
  (List.range (t.length + 1)).find? (fun fd => (fd_get t fd).isNone)

/-- An open file description different from all those the table refers to. -/
def fresh_ofd (t : FdTable) : Nat := (t.map (fun e => e.2)).foldr max 0 + 1

/-- A process: `pid` is the list of fork indices leading to it from the root process (latest
first), `calls` counts the system calls that can fail (`pipe`, `fork`, `execvp`) it has made. -/
structure Proc where
  pid : List Nat := []
  calls : Nat := 0
  fds : FdTable := [(0, 0), (1, 1), (2, 2)]
  deriving DecidableEq, Repr

/-- The operating system as far as the program cannot control it: whether the `k`-th fallible
system call of the process `p` succeeds is `os (k :: p)`. -/
abbrev OS := List Nat → Bool

/-- Does the next fallible system call of the process succeed. -/
def sys_ok (os : OS) (p : Proc) : Bool := os (p.calls :: p.pid)

/-- The process after one more fallible system call. -/
def Proc.tick (p : Proc) : Proc := { p with calls := p.calls + 1 }

/-- The descriptors of a process right after a successful `pipe` that returned `r` and `w`:
`r` refers to the read end and `w` to the write end of a new pipe. -/
def pipe_fds (t : FdTable) (r w : Nat) : FdTable :=
  (w, fresh_ofd t + 1) :: (r, fresh_ofd t) :: t

/-- The system call `pipe(pipefd)`: on success `pipefd[0]`, `pipefd[1]` (the two lowest free
descriptors, referring to the read end and the write end of a new pipe) and the process after
the call; `none` for the result `-1`. -/
def sys_pipe (os : OS) (p : Proc) : Option (Nat × Nat × Proc) :=
  if sys_ok os p then
    match lowest_free p.fds with
    | none => none
    | some r =>
      match lowest_free ((r, fresh_ofd p.fds) :: p.fds) with
      | none => none
      | some w =>
        some (r, w, { p.tick with fds := pipe_fds p.fds r w })
  else none

/-- The child a process gets by a `fork` that is its `k`-th fallible system call: a copy of
the caller with the same descriptors. -/
def Proc.child (p : Proc) (k : Nat) : Proc := { pid := k :: p.pid, calls := 0, fds := p.fds }

/-- The system call `fork()`: on success the child's process id as the parent sees it, the
child (a copy of the caller) and the parent after the call; `none` for the result `-1`. -/
def sys_fork (os : OS) (p : Proc) : Option (Nat × Proc × Proc) :=
  if sys_ok os p then some (p.calls, p.child p.calls, p.tick) else none

/-- What a process does, as seen from outside, in program order. -/
inductive Act where
  /-- a call of `find_component` with this name -/
  | resolve (name : List Char)
  /-- a line printed with `fprintf(stderr, ...)` -/
  | eprint (msg : List Char)
  /-- a call of `perror` with this prefix -/
  | perror (what : List Char)
  /-- a successful `pipe`, with `pipefd[0]` and `pipefd[1]` -/
  | pipe (r w : Nat)
  /-- a successful `fork`, with the child's id and everything the child does -/
  | fork (pid : Nat) (child : List Act)
  | close (fd : Nat)
  | dup2 (oldfd newfd : Nat)
  | waitpid (pid : Nat)
  /-- a successful `execvp`: the process continues as the external program, started with
  this argument vector and these descriptors -/
  | execvp (args : List (List Char)) (fds : FdTable)
  /-- a failed `execvp` and the line reporting it -/
  | exec_failed (args : List (List Char))
  /-- a call `execvp(NULL, args)`: the C library reads through the null program name and the
  process is killed by a signal -/
  | killed
  | exit (status : Nat)
  /-- an access outside an array, at index `i`: the behaviour is undefined from here on -/
  | out_of_bounds (i : Nat)
  /-- the recursion was not followed any deeper -/
  | unfinished

/-- The outcome of running a function in a process: what the process did meanwhile, and the
process as the function returned to its caller, `none` when the process ended inside. -/
structure Run where
  acts : List Act
  cont : Option Proc

/-- Everything a forked child does: the called function, then `exit(0)` if it returns. -/
def child_acts (r : Run) : List Act :=
  match r.cont with
  | some _ => r.acts ++ [Act.exit 0]
  | none => r.acts

/-- The line `Error: Component '%s' not found`. -/
def component_not_found (name : List Char) : List Char :=
  "Error: Component '".toList ++ name ++ "' not found\n".toList

/-- The line `Error: Part '%s' not found`. -/
def part_not_found (name : List Char) : List Char :=
  "Error: Part '".toList ++ name ++ "' not found\n".toList

/-! ## Executor -/

/-- The function `execute_node`: the command is tokenized and `execvp` replaces the process
image; when it fails the error is reported and the process exits with status 1.  A command
without any token gives `args[0] == NULL`, and `execvp(args[0], args)` kills the process. -/
def execute_node (os : OS) (p : Proc) (node : Node) : Run :=
  let args := parse_command node.command
  if args.isEmpty then ⟨[.killed], none⟩
  else if sys_ok os p then ⟨[.execvp args p.fds], none⟩
  else ⟨[.exec_failed args, .exit 1], none⟩

/-- What a child of `execute_pipe` runs: `execute_node` directly when the endpoint is a Node,
otherwise `execute_component`, passed as `exec`. -/
def execute_endpoint (os : OS) (exec : Proc → Component → Run) (p : Proc) (comp : Component) :
    Run :=
  match comp with
  | .node n => execute_node os p n
  | _ => exec p comp

/-- The descriptors of child 1 of `execute_pipe` after
`close(pipefd[0]); dup2(pipefd[1], STDOUT_FILENO); close(pipefd[1])`. -/
def source_fds (t : FdTable) (r w : Nat) : FdTable :=
  sys_close (sys_dup2 (sys_close t r) w STDOUT_FILENO) w

/-- The descriptors of child 2 of `execute_pipe` after
`close(pipefd[1]); dup2(pipefd[0], STDIN_FILENO); close(pipefd[0])`. -/
def sink_fds (t : FdTable) (r w : Nat) : FdTable :=
  sys_close (sys_dup2 (sys_close t w) r STDIN_FILENO) r

/-- The function `execute_pipe`; `exec` is `execute_component`. -/
def execute_pipe (os : OS) (reg : List Component) (exec : Proc → Component → Run)
    (p : Proc) (pipe_comp : Pipe) : Run :=
  let found := [Act.resolve pipe_comp.from_, Act.resolve pipe_comp.to_]
  match find_component reg pipe_comp.from_, find_component reg pipe_comp.to_ with
  | none, _ => ⟨found ++ [.eprint (component_not_found pipe_comp.from_), .exit 1], none⟩
  | some _, none => ⟨found ++ [.eprint (component_not_found pipe_comp.to_), .exit 1], none⟩
  | some from_comp, some to_comp =>
    match sys_pipe os p with
    | none => ⟨found ++ [.perror "pipe".toList, .exit 1], none⟩
    | some (r, w, p1) =>
      match sys_fork os p1 with
      | none => ⟨found ++ [.pipe r w, .perror "fork".toList, .exit 1], none⟩
      | some (pid1, c1, p2) =>
        let c1 := { c1 with fds := source_fds c1.fds r w }
        let run1 := execute_endpoint os exec c1 from_comp
        let child1 := [Act.close r, .dup2 w STDOUT_FILENO, .close w] ++ child_acts run1
        match sys_fork os p2 with
        | none => ⟨found ++ [.pipe r w, .fork pid1 child1, .perror "fork".toList, .exit 1], none⟩
        | some (pid2, c2, p3) =>
          let c2 := { c2 with fds := sink_fds c2.fds r w }
          let run2 := execute_endpoint os exec c2 to_comp
          let child2 := [Act.close w, .dup2 r STDIN_FILENO, .close r] ++ child_acts run2
          -- parent: close both ends and wait
          ⟨found ++ [.pipe r w, .fork pid1 child1, .fork pid2 child2, .close r, .close w,
              .waitpid pid1, .waitpid pid2],
            some { p3 with fds := sys_close (sys_close p3.fds r) w }⟩

/-- The loop of `execute_concatenate` from index `i` on, `todo` being `concat->parts - i`
when that is positive and `0` otherwise. -/
def concatenate_loop (os : OS) (reg : List Component) (exec : Proc → Component → Run)
    (concat : Concatenate) : Nat → Nat → Proc → Run
  | 0, _, p => ⟨[], some p⟩
  | todo + 1, i, p =>
    match concat.part_names[i]? with
    | none => ⟨[.out_of_bounds i], none⟩
    | some part_name =>
      match find_component reg part_name with
      | none => ⟨[.resolve part_name, .eprint (part_not_found part_name), .exit 1], none⟩
      | some part =>
        match sys_fork os p with
        | none => ⟨[.resolve part_name, .perror "fork".toList, .exit 1], none⟩
        | some (pid, c, p1) =>
          let rest := concatenate_loop os reg exec concat todo (i + 1) p1
          ⟨[.resolve part_name, .fork pid (child_acts (exec c part)), .waitpid pid] ++ rest.acts,
            rest.cont⟩

/-- The function `execute_concatenate`. -/
def execute_concatenate (os : OS) (reg : List Component) (exec : Proc → Component → Run)
    (p : Proc) (concat : Concatenate) : Run :=
  concatenate_loop os reg exec concat concat.parts.toNat 0 p

/-- The function `execute_stderr`. -/
def execute_stderr (os : OS) (reg : List Component) (p : Proc) (serr : Stderr) : Run :=
  match find_component reg serr.from_ with
  | none => ⟨[.resolve serr.from_, .eprint (component_not_found serr.from_), .exit 1], none⟩
  | some (.node n) =>
    match sys_fork os p with
    | none => ⟨[.resolve serr.from_, .perror "fork".toList, .exit 1], none⟩
    | some (pid, c, p1) =>
      -- child: dup2(STDOUT_FILENO, STDERR_FILENO)
      let c := { c with fds := sys_dup2 c.fds STDOUT_FILENO STDERR_FILENO }
      ⟨[.resolve serr.from_,
        .fork pid ([Act.dup2 STDOUT_FILENO STDERR_FILENO] ++ child_acts (execute_node os c n)),
        .waitpid pid], some p1⟩
  | some _ =>
    ⟨[.resolve serr.from_, .eprint "Error: stderr can only be applied to nodes\n".toList, .exit 1],
      none⟩

/-- The function `execute_component`.  The recursion may go on for ever when components refer
to each other in a cycle; `depth` bounds how deep it is followed. -/
def execute_component (os : OS) (reg : List Component) : Nat → Proc → Component → Run
  | 0, _, _ => ⟨[.unfinished], none⟩
  | depth + 1, p, comp =>
    match comp with
    | .node n => execute_node os p n
    | .pipe pc => execute_pipe os reg (execute_component os reg depth) p pc
    | .concat c => execute_concatenate os reg (execute_component os reg depth) p c
    | .stderr e => execute_stderr os reg p e
    | .file _ => ⟨[.eprint "Error: Unknown component type\n".toList, .exit 1], none⟩

/-- The function `main` once the arguments are counted and the file is read: `text` is the
content of the flow file, `none` when it cannot be opened. -/
def main (os : OS) (depth : Nat) (argv : List (List Char)) (text : Option (List Char))
    (p : Proc) : List Act :=
  match argv with
  | [_, _, target] =>
    match text with
    | none => [.perror "Error opening file".toList, .exit 1]
    | some content =>
      match parse_flow_text content with
      | none => [.out_of_bounds MAX_COMPONENTS]
      | some st =>
        match find_component st.components target with
        | none =>
          [.resolve target, .eprint ("Error: Target '".toList ++ target ++ "' not found\n".toList),
            .exit 1]
        | some target_comp =>
          match execute_component os st.components depth p target_comp with
          | ⟨acts, some _⟩ => [.resolve target] ++ acts ++ [.exit 0]
          | ⟨acts, none⟩ => [.resolve target] ++ acts
  | _ =>
    [.eprint ("Usage: ".toList ++ argv.headD "(null)".toList ++ " <flow_file> <target>\n".toList),
      .exit 1]

/-- The exit status of a process, read off what it did: the argument of the `exit` it ended
with, `none` when it did not end by `exit` (it goes on as an external program, is killed, or
is cut). -/
def exit_status (acts : List Act) : Option Nat :=
  match acts.getLast? with
  | some (.exit s) => some s
  | _ => none


/-! ## The grammar of the flow description, as the specification words it -/

/-- The component type a key starts, for the five keys that start a component. -/
def starter_type (key : List Char) : Option ComponentType :=
  if key = "node".toList then some .TYPE_NODE
  else if key = "pipe".toList then some .TYPE_PIPE
  else if key = "concatenate".toList then some .TYPE_CONCATENATE
  else if key = "stderr".toList then some .TYPE_STDERR
  else if key = "file".toList then some .TYPE_FILE
  else none

/-- The table of attribute keys: does `key` set a field of a cursor of type `t`. -/
def attribute_applies (key : List Char) (t : ComponentType) : Bool :=
  (key == "command".toList && t == .TYPE_NODE)
    || (key == "from".toList && (t == .TYPE_PIPE || t == .TYPE_STDERR))
    || (key == "to".toList && t == .TYPE_PIPE)
    || (key == "parts".toList && t == .TYPE_CONCATENATE)
    || (key.take 5 == "part_".toList && t == .TYPE_CONCATENATE)
    || (key == "name".toList && t == .TYPE_FILE)

/-- The attribute keys `command`, `from`, `to`, `parts`, `part_<k>` and `name`. -/
def is_attribute_key (key : List Char) : Bool :=
  key == "command".toList || key == "from".toList || key == "to".toList
    || key == "parts".toList || key.take 5 == "part_".toList || key == "name".toList

/-- The keys of the grammar: the five that start a component and the attribute keys. -/
def in_grammar (key : List Char) : Bool := (starter_type key).isSome || is_attribute_key key

/-- What a line contributes to the registry according to the specification: a line with an
`=` whose key starts a component gives that type and the value cut to 255 characters. -/
def header_of_line (l : List Char) : Option (ComponentType × List Char) :=
  if l.contains '=' then
    (starter_type (l.takeWhile (fun c => c != '='))).map
      (fun t => (t, (((l.dropWhile (fun c => c != '=')).drop 1).take 255)))
  else none

/-- The type and the name of a stored component. -/
def Component.header (c : Component) : ComponentType × List Char := (c.type, c.name)

/-- A text file with the given lines, each ended by a newline. -/
def unlines : List (List Char) → List Char
  | [] => []
  | l :: ls => l ++ '\n' :: unlines ls

/-- The loop body applied to the lines of a text in turn. -/
def process_lines : ParseState → List (List Char) → Option ParseState
  | st, [] => some st
  | st, l :: ls => (process_line st l).bind (fun st1 => process_lines st1 ls)

/-- A line that `fgets` passes on as it is written: no newline or NUL inside, and not longer
than the 1023 characters the buffer `line` takes. -/
def fits_buffer (l : List Char) : Prop := '\n' ∉ l ∧ NUL ∉ l ∧ l.length ≤ 1023

instance (l : List Char) : Decidable (fits_buffer l) := by
  unfold fits_buffer
  infer_instance

/-! ## Reading a trace -/

/-- The children a process spawned, in order, each with its id and what it did. -/
def children : List Act → List (Nat × List Act)
  | [] => []
  | .fork pid child :: rest => (pid, child) :: children rest
  | _ :: rest => children rest

/-- What a process whose children never overlap sends down a shared stream: `out child` is
what one child sends, and it is sent between the `fork` that starts the child and the
`waitpid` that collects it.  The first argument is the child alive so far; the result is
`none` when a second child is started while one is alive, for then the order is not
determined, or when a child is left uncollected. -/
def serial_output (out : List Act → List Char) :
    Option (Nat × List Act) → List Act → Option (List Char)
  | none, [] => some []
  | some _, [] => none
  | none, .fork pid child :: rest => serial_output out (some (pid, child)) rest
  | some _, .fork _ _ :: _ => none
  | some (pid, child), .waitpid w :: rest =>
    if w = pid then (serial_output out none rest).map (fun o => out child ++ o) else none
  | live, _ :: rest => serial_output out live rest

/-- The trace the specification gives for a Concatenate run by the process `p`, the parts
being given with their names: resolve, spawn and collect, one part after the other.  The
`k`-th child is a copy of `p` made at its `k`-th fallible system call. -/
def serial_trace (exec : Proc → Component → Run) (p : Proc) :
    Nat → List (List Char × Component) → List Act
  | _, [] => []
  | k, (name, part) :: rest =>
    [Act.resolve name,
      .fork k (child_acts (exec (p.child k) part)),
      .waitpid k] ++ serial_trace exec p (k + 1) rest

/-- What the children of `serial_trace` send, in the order of the parts. -/
def serial_outputs (out : List Act → List Char) (exec : Proc → Component → Run) (p : Proc) :
    Nat → List (List Char × Component) → List Char
  | _, [] => []
  | k, (_, part) :: rest =>
    out (child_acts (exec (p.child k) part))
      ++ serial_outputs out exec p (k + 1) rest

/-! ## A sample flow: three Nodes printing `1`, `2`, `3`, and their concatenation -/

/-- The registry of the sample flow. -/
def sample_registry : List Component :=
  [.node { name := "one".toList, command := "printf 1".toList },
    .node { name := "two".toList, command := "printf 2".toList },
    .node { name := "three".toList, command := "printf 3".toList }]

/-- The Concatenate of the three sample Nodes. -/
def sample_concat : Concatenate :=
  { name := "all".toList, parts := 3,
    part_names := ["one".toList, "two".toList, "three".toList, [], [], [], [], [], [], []] }

/-- What a child that does nothing but launch `printf s` prints: `s`. -/
def printf_output : List Act → List Char
  | [.execvp [_, s] _] => s
  | _ => []

/-- The Node `a` of the sample pipe, `echo hello`. -/
def sample_source : Component := .node { name := "a".toList, command := "echo hello".toList }

/-- The Node `b` of the sample pipe, `tr a-z A-Z`. -/
def sample_sink : Component := .node { name := "b".toList, command := "tr a-z A-Z".toList }

/-- The sample Pipe from `a` to `b`. -/
def sample_pipe : Pipe := { name := "p".toList, from_ := "a".toList, to_ := "b".toList }

/-- A command string of `n` words `x`, each followed by a space. -/
def words_x (n : Nat) : List Char := (List.replicate n "x ".toList).flatten

/-- The Concatenate `c` as `concatenate=c` creates it, but with slot `k` holding `v`. -/
def fresh_concat_with (k : Nat) (v : List Char) : Component :=
  .concat { name := "c".toList, part_names := (List.replicate MAX_PARTS []).set k v }

/-- The parser state right after the single line `concatenate=c`. -/
def after_concatenate_line : ParseState :=
  { components := [.concat { name := "c".toList }], current := some 0 }

/-- The parser state right after the single line `pipe=p`. -/
def after_pipe_line : ParseState :=
  { components := [.pipe { name := "p".toList }], current := some 0 }

/-- A Concatenate of three parts over the sample registry whose part 1 names no component. -/
def sample_concat_missing : Concatenate :=
  { name := "gap".toList, parts := 3,
    part_names := ["one".toList, "zzz".toList, "three".toList, [], [], [], [], [], [], []] }

/-- A flow file whose Concatenate `c` declares three parts and gives no `part_1` line. -/
def sparse_flow : List Char :=
  "node=a\ncommand=true\nconcatenate=c\nparts=3\npart_0=a\npart_2=a\n".toList

/-- A Concatenate of three parts over the sample registry whose slot 1 was never assigned. -/
def sample_concat_sparse : Concatenate :=
  { name := "sparse".toList, parts := 3,
    part_names := ["one".toList, [], "three".toList, [], [], [], [], [], [], []] }

/-- A flow file whose Concatenate `c` declares eleven parts and assigns all ten slots. -/
def eleven_parts_flow : List Char :=
  ("node=a\ncommand=true\nconcatenate=c\nparts=11\n"
    ++ "part_0=a\npart_1=a\npart_2=a\npart_3=a\npart_4=a\n"
    ++ "part_5=a\npart_6=a\npart_7=a\npart_8=a\npart_9=a\n").toList

/-- The Pipe a description `pipe=n`, `from=v`, `to=w` stores: each value cut to 255
characters. -/
def stored_pipe (n v w : List Char) : Component :=
  .pipe { name := n.take 255, from_ := v.take 255, to_ := w.take 255 }

/-! # Properties -/

/-! ## Tokenizer -/

theorem takeWhile_stop {p : Char → Bool} (l t : List Char) (h1 : ∀ a ∈ l, p a = true)
    (h2 : ∀ b ∈ t.head?, p b = false) :
    (l ++ t).takeWhile p = l ∧ (l ++ t).dropWhile p = t := by
  rw [List.takeWhile_append_of_pos h1, List.dropWhile_append_of_pos h1]
  cases t with
  | nil => simp
  | cons b t' =>
    have hb : p b = false := h2 b (by simp)
    simp [List.takeWhile_cons, List.dropWhile_cons, hb]

theorem cstr_eq_self (l : List Char) (h : ∀ c ∈ l, c ≠ NUL) : cstr l = l := by
  unfold cstr
  rw [List.takeWhile_eq_self_iff]
  intro c hc
  simpa using h c hc

theorem sepsOk_cons {w : Word} {sep : List Char} {r : List (Word × List Char)}
    (h : sepsOk ((w, sep) :: r) = true) :
    sep.all isBlank = true ∧ sepsOk r = true ∧ (r ≠ [] → sep ≠ []) := by
  cases r with
  | nil => simp [sepsOk] at h ⊢; exact h
  | cons p r' =>
    simp only [sepsOk, Bool.and_eq_true] at h
    refine ⟨h.1.1, h.2, fun _ hs => ?_⟩
    have := h.1.2
    simp [hs] at this

theorem text_head_not_blank (w : Word) (hw : w.ok = true) :
    ∃ c t, w.text = c :: t ∧ isBlank c = false := by
  cases w with
  | bare w =>
    cases w with
    | nil => simp [Word.ok] at hw
    | cons c t =>
      refine ⟨c, t, rfl, ?_⟩
      simp [Word.ok] at hw
      exact hw.1.1.1
  | quoted q w =>
    refine ⟨q, w ++ [q], rfl, ?_⟩
    simp only [Word.ok, Bool.and_eq_true] at hw
    have hq := hw.1
    simp only [isQuote, Bool.or_eq_true, beq_iff_eq] at hq
    rcases hq with h | h <;> subst h <;> decide

theorem parse_args_render (items : List (Word × List Char)) :
    ∀ (slots : Nat) (lead : List Char), lead.all isBlank = true → sepsOk items = true →
      (∀ p ∈ items, p.1.ok = true) → items.length ≤ slots →
      parse_args slots (lead ++ render items) = items.map (fun p => p.1.value) := by
  induction items with
  | nil =>
    intro slots lead hl _ _ _
    cases slots with
    | zero => simp [parse_args]
    | succ s =>
      have : List.dropWhile isBlank lead = [] := by
        rw [List.dropWhile_eq_nil_iff]; simpa using hl
      simp [parse_args, render, this]
  | cons p r ih =>
    obtain ⟨w, sep⟩ := p
    intro slots lead hl hs hok hlen
    obtain ⟨hsep, hsr, hne⟩ := sepsOk_cons hs
    have hw : w.ok = true := hok (w, sep) (by simp)
    have hokr : ∀ p ∈ r, p.1.ok = true := fun p hp => hok p (by simp [hp])
    cases slots with
    | zero => simp at hlen
    | succ s =>
      have hlen' : r.length ≤ s := by simpa using hlen
      have hlead : ∀ a ∈ lead, isBlank a = true := by simpa using hl
      obtain ⟨c, t, htext, hc⟩ := text_head_not_blank w hw
      have hdrop : List.dropWhile isBlank (lead ++ render ((w, sep) :: r))
          = c :: (t ++ (sep ++ render r)) := by
        rw [List.dropWhile_append_of_pos hlead]
        simp [render, htext, List.dropWhile_cons, hc]
      rw [parse_args, hdrop]
      simp only
      cases w with
      | quoted q v =>
        simp only [Word.text, List.cons.injEq] at htext
        obtain ⟨rfl, rfl⟩ := htext
        simp only [Word.ok, Bool.and_eq_true] at hw
        have hv : ∀ a ∈ v, (a != q) = true := by
          intro a ha
          have := List.all_eq_true.mp hw.2 a ha
          simp only [Bool.and_eq_true] at this
          exact this.1
        have hstop := takeWhile_stop (p := fun d => d != q) v (q :: (sep ++ render r)) hv
          (by simp)
        simp only [hw.1, if_true, List.append_assoc, List.singleton_append, hstop.1, hstop.2,
          List.drop_succ_cons, List.drop_zero, List.map_cons]
        rw [ih s sep hsep hsr hokr hlen']
        rfl
      | bare v =>
        simp only [Word.text] at htext
        subst htext
        simp only [Word.ok, Bool.and_eq_true] at hw
        have hq : isQuote c = false := by simpa using hw.2
        have hv : ∀ a ∈ c :: t, (!isBlank a) = true := by
          intro a ha
          have := List.all_eq_true.mp hw.1.2 a ha
          simp only [Bool.and_eq_true] at this
          exact this.1
        have hhead : ∀ b ∈ (sep ++ render r).head?, (!isBlank b) = false := by
          intro b hb
          cases sep with
          | nil =>
            have : r = [] := by
              by_contra hr
              exact hne hr rfl
            subst this
            simp [render] at hb
          | cons b' sep' =>
            simp at hb
            subst hb
            simp at hsep
            simp [hsep.1]
        have hstop := takeWhile_stop (p := fun d => !isBlank d) (c :: t) (sep ++ render r) hv hhead
        have hcons : c :: (t ++ (sep ++ render r)) = (c :: t) ++ (sep ++ render r) := rfl
        rw [hcons]
        simp only [hq, Bool.false_eq_true, if_false, hstop.1, hstop.2, List.map_cons]
        have hafter : (sep ++ render r).drop 1 = sep.drop 1 ++ render r := by
          cases sep with
          | nil =>
            have : r = [] := by
              by_contra hr
              exact hne hr rfl
            subst this
            simp [render]
          | cons b' sep' => simp
        have hblank : (sep.drop 1).all isBlank = true := by
          rw [List.all_eq_true] at hsep ⊢
          intro a ha
          exact hsep a (List.mem_of_mem_drop ha)
        rw [hafter, ih s (sep.drop 1) hblank hsr hokr hlen']
        rfl

theorem render_no_nul (items : List (Word × List Char)) :
    sepsOk items = true → (∀ p ∈ items, p.1.ok = true) → ∀ c ∈ render items, c ≠ NUL := by
  induction items with
  | nil => intro _ _ c hc; simp [render] at hc
  | cons p r ih =>
    obtain ⟨w, sep⟩ := p
    intro hs hok c hc
    obtain ⟨hsep, hsr, _⟩ := sepsOk_cons hs
    have hw : w.ok = true := hok (w, sep) (by simp)
    simp only [render, List.mem_append] at hc
    rcases hc with hc | hc | hc
    · cases w with
      | bare v =>
        simp only [Word.ok, Bool.and_eq_true] at hw
        have := List.all_eq_true.mp hw.1.2 c hc
        simp only [Bool.and_eq_true, bne_iff_ne] at this
        exact this.2
      | quoted q v =>
        simp only [Word.ok, Bool.and_eq_true] at hw
        have hq : q ≠ NUL := by
          have h1 := hw.1
          simp only [isQuote, Bool.or_eq_true, beq_iff_eq] at h1
          rcases h1 with h | h <;> subst h <;> decide
        simp only [Word.text, List.mem_cons, List.mem_append, List.mem_singleton,
          List.not_mem_nil, or_false] at hc
        rcases hc with hc | hc | hc
        · exact hc ▸ hq
        · have := List.all_eq_true.mp hw.2 c hc
          simp only [Bool.and_eq_true, bne_iff_ne] at this
          exact this.2
        · exact hc ▸ hq
    · have hb := List.all_eq_true.mp hsep c hc
      intro h
      subst h
      exact absurd hb (by decide)
    · exact ih hsr (fun p hp => hok p (by simp [hp])) c hc

/-- C1: tokenizer round trip.  Take at most 63 well-formed words (C strings, so without NUL;
bare: non-empty, no blank, not starting with a quote; quoted: any string, possibly empty, not
containing its own quote character), write them in order, quoted ones between their quotes,
each followed by a run of spaces and tabs that is non-empty except possibly after the last
word, the whole preceded by any run of spaces and tabs: `parse_command` returns exactly the
words, in order, quotes stripped. -/
theorem parse_command_round_trip (lead : List Char) (items : List (Word × List Char))
    (hlead : lead.all isBlank = true) (hseps : sepsOk items = true)
    (hwords : ∀ p ∈ items, p.1.ok = true) (hlen : items.length ≤ 63) :
    parse_command (lead ++ render items) = items.map (fun p => p.1.value) := by
  have hnul : ∀ c ∈ lead ++ render items, c ≠ NUL := by
    intro c hc
    rcases List.mem_append.mp hc with h | h
    · have hb := List.all_eq_true.mp hlead c h
      intro h0
      subst h0
      exact absurd hb (by decide)
    · exact render_no_nul items hseps hwords c h
  unfold parse_command
  rw [cstr_eq_self _ hnul]
  exact parse_args_render items (MAX_ARGS - 1) lead hlead hseps hwords hlen

/-- Witnesses of C1: the three command strings of the specification. -/
theorem parse_command_round_trip_witness :
    parse_command "ab \"c d\" 'e f' g".toList
        = ["ab".toList, "c d".toList, "e f".toList, "g".toList]
      ∧ parse_command " \techo ".toList = ["echo".toList]
      ∧ parse_command "".toList = [] :=
  ⟨parse_command_round_trip []
      [(.bare "ab".toList, " ".toList), (.quoted '"' "c d".toList, " ".toList),
        (.quoted '\'' "e f".toList, " ".toList), (.bare "g".toList, [])]
      (by decide) (by decide) (by decide) (by decide),
    parse_command_round_trip " \t".toList [(.bare "echo".toList, " ".toList)]
      (by decide) (by decide) (by decide) (by decide),
    parse_command_round_trip [] [] (by decide) (by decide) (by decide) (by decide)⟩

theorem find_component_cons (c : Component) (rest : List Component) (name : List Char) :
    find_component (c :: rest) name
      = if c.name = name then some c else find_component rest name := by
  cases c <;> simp [find_component, Component.name]

/-- C2: resolver first match.  `find_component` returns a component exactly when it is the
entry at the smallest registry index whose name equals the query, whatever its type, and
returns `none` exactly when no entry of the registry has that name. -/
theorem find_component_first_match (reg : List Component) (name : List Char) :
    (∀ c, find_component reg name = some c ↔
        ∃ i : Nat, reg[i]? = some c ∧ c.name = name ∧
          ∀ j : Nat, j < i → ∀ d : Component, reg[j]? = some d → d.name ≠ name)
      ∧ (find_component reg name = none ↔ ∀ c ∈ reg, c.name ≠ name) := by
  induction reg with
  | nil => simp [find_component]
  | cons c rest ih =>
    rw [find_component_cons]
    by_cases hc : c.name = name
    · simp only [hc, if_true]
      refine ⟨fun d => ⟨fun h => ?_, fun h => ?_⟩, by simp [hc]⟩
      · have hd : c = d := by simpa using h
        subst hd
        exact ⟨0, by simp, hc, fun j hj => absurd hj (Nat.not_lt_zero j)⟩
      · obtain ⟨i, hi, _, hmin⟩ := h
        cases i with
        | zero => simpa using hi
        | succ i => exact absurd hc (hmin 0 (Nat.succ_pos i) c (by simp))
    · simp only [hc, if_false]
      refine ⟨fun d => ?_, ?_⟩
      · rw [ih.1 d]
        constructor
        · rintro ⟨i, hi, hn, hmin⟩
          refine ⟨i + 1, by simpa using hi, hn, fun j hj e he => ?_⟩
          cases j with
          | zero =>
            have : c = e := by simpa using he
            exact this ▸ hc
          | succ j => exact hmin j (by omega) e (by simpa using he)
        · rintro ⟨i, hi, hn, hmin⟩
          cases i with
          | zero =>
            have : c = d := by simpa using hi
            exact absurd hn (this ▸ hc)
          | succ i =>
            refine ⟨i, by simpa using hi, hn, fun j hj e he => ?_⟩
            exact hmin (j + 1) (by omega) e (by simpa using he)
      · rw [ih.2]
        simp [hc]

/-! ## Parser -/

theorem apply_key_no_match (st : ParseState) (key value : List Char)
    (hs : starter_type key = none)
    (hc : ∀ c, st.cursor = some c → attribute_applies key c.type = false) :
    apply_key st key value = some st := by
  have h1 : key ≠ "node".toList := fun h => by simp [starter_type, h] at hs
  have h2 : key ≠ "pipe".toList := fun h => by subst h; revert hs; decide
  have h3 : key ≠ "concatenate".toList := fun h => by subst h; revert hs; decide
  have h4 : key ≠ "stderr".toList := fun h => by subst h; revert hs; decide
  have h5 : key ≠ "file".toList := fun h => by subst h; revert hs; decide
  unfold apply_key
  simp only [h1, h2, h3, h4, h5, if_false]
  cases hcur : st.cursor with
  | none => simp
  | some c =>
    have ha := hc c hcur
    simp only [attribute_applies, Bool.or_eq_false_iff, Bool.and_eq_false_iff, beq_eq_false_iff_ne,
      ne_eq, Bool.or_eq_false_iff] at ha
    obtain ⟨⟨⟨⟨⟨a1, a2⟩, a3⟩, a4⟩, a5⟩, a6⟩ := ha
    cases c <;> simp_all [Component.type]


theorem starter_of_attribute (key : List Char) (h : is_attribute_key key = true) :
    starter_type key = none := by
  simp only [is_attribute_key, Bool.or_eq_true, beq_iff_eq] at h
  have hp : ∀ k : List Char, starter_type k ≠ none → k.take 5 ≠ "part_".toList := by
    intro k hk
    unfold starter_type at hk
    split_ifs at hk with g1 g2 g3 g4 g5
    · subst g1; decide
    · subst g2; decide
    · subst g3; decide
    · subst g4; decide
    · subst g5; decide
    · exact absurd rfl hk
  rcases h with ((((h | h) | h) | h) | h) | h
  · subst h; decide
  · subst h; decide
  · subst h; decide
  · subst h; decide
  · by_contra hs
    exact hp key hs h
  · subst h; decide

theorem attribute_applies_is_attribute (key : List Char) (t : ComponentType)
    (h : is_attribute_key key = false) : attribute_applies key t = false := by
  simp only [is_attribute_key, Bool.or_eq_false_iff] at h
  obtain ⟨⟨⟨⟨⟨a1, a2⟩, a3⟩, a4⟩, a5⟩, a6⟩ := h
  simp only [attribute_applies, a1, a2, a3, a4, a5, a6, Bool.false_and, Bool.or_false]

theorem process_line_unchanged (st : ParseState) (buf : List Char)
    (h : line_text buf = [] ∨ '=' ∉ line_text buf ∨ in_grammar (line_key buf) = false
      ∨ (is_attribute_key (line_key buf) = true ∧
          ∀ c, st.cursor = some c → attribute_applies (line_key buf) c.type = false)) :
    process_line st buf = some st := by
  unfold process_line
  rcases h with h | h | h | h
  · simp [h]
  · have : (line_text buf).contains '=' = false := by
      simpa [List.contains_iff_exists_mem_beq] using h
    simp only [this, Bool.not_false, if_true, ite_self]
  · simp only [in_grammar, Bool.or_eq_false_iff] at h
    have hs : starter_type (line_key buf) = none := by
      cases hst : starter_type (line_key buf) with
      | none => rfl
      | some t => simp [hst] at h
    rw [apply_key_no_match st _ _ hs (fun c _ => attribute_applies_is_attribute _ _ h.2)]
    simp
  · rw [apply_key_no_match st _ _ (starter_of_attribute _ h.1) h.2]
    simp

theorem fgets_short (l : List Char) : ∀ (room : Nat) (rest : List Char),
    '\n' ∉ l → l.length < room → fgets room (l ++ '\n' :: rest) = (l ++ ['\n'], rest) := by
  induction l with
  | nil =>
    intro room rest _ hlen
    cases room with
    | zero => simp at hlen
    | succ k => simp [fgets]
  | cons c l ih =>
    intro room rest hnl hlen
    cases room with
    | zero => simp at hlen
    | succ k =>
      have hc : c ≠ '\n' := fun h => hnl (by simp [h])
      have hl : '\n' ∉ l := fun h => hnl (by simp [h])
      have hk : l.length < k := by simpa using hlen
      simp [fgets, hc, ih k rest hl hk]

theorem fgets_full (l : List Char) : ∀ (room : Nat) (rest : List Char),
    '\n' ∉ l → l.length = room → fgets room (l ++ rest) = (l, rest) := by
  induction l with
  | nil =>
    intro room rest _ hlen
    simp at hlen
    subst hlen
    simp [fgets]
  | cons c l ih =>
    intro room rest hnl hlen
    cases room with
    | zero => simp at hlen
    | succ k =>
      have hc : c ≠ '\n' := fun h => hnl (by simp [h])
      have hl : '\n' ∉ l := fun h => hnl (by simp [h])
      have hk : l.length = k := by simpa using hlen
      simp [fgets, hc, ih k rest hl hk]

theorem fgets_last (l : List Char) : ∀ (room : Nat),
    '\n' ∉ l → l.length ≤ room → fgets room l = (l, []) := by
  induction l with
  | nil => intro room _ _; cases room <;> simp [fgets]
  | cons c l ih =>
    intro room hnl hlen
    cases room with
    | zero => simp at hlen
    | succ k =>
      have hc : c ≠ '\n' := fun h => hnl (by simp [h])
      have hl : '\n' ∉ l := fun h => hnl (by simp [h])
      have hk : l.length ≤ k := by simpa using hlen
      simp [fgets, hc, ih k hl hk]

theorem fgets_append (input : List Char) : ∀ (room : Nat),
    (fgets room input).1 ++ (fgets room input).2 = input := by
  induction input with
  | nil => intro room; cases room <;> simp [fgets]
  | cons c l ih =>
    intro room
    cases room with
    | zero => simp [fgets]
    | succ k =>
      by_cases hc : c = '\n'
      · simp [fgets, hc]
      · simp [fgets, hc, ih k]

theorem fgets_progress (room : Nat) (c : Char) (l : List Char) :
    (fgets (room + 1) (c :: l)).1 ≠ [] := by
  by_cases hc : c = '\n' <;> simp [fgets, hc]

theorem parse_lines_fuel : ∀ (fuel : Nat) (st : ParseState) (input : List Char),
    input.length ≤ fuel → parse_lines fuel st input = parse_lines input.length st input := by
  intro fuel
  induction fuel using Nat.strong_induction_on with
  | _ fuel ih =>
    intro st input hlen
    cases input with
    | nil => cases fuel <;> simp [parse_lines, fgets]
    | cons c l =>
      cases fuel with
      | zero => simp at hlen
      | succ k =>
        have hp := fgets_progress 1022 c l
        have ha := fgets_append (c :: l) 1023
        have hlen2 : (fgets 1023 (c :: l)).1.length + (fgets 1023 (c :: l)).2.length
            = l.length + 1 := by
          rw [← List.length_append, ha]; rfl
        have hpos : 0 < (fgets 1023 (c :: l)).1.length := List.length_pos.mpr hp
        simp only [List.length_cons, parse_lines]
        rcases hf : fgets 1023 (c :: l) with ⟨buf, rest⟩
        rw [hf] at hp hlen2 hpos
        simp only at hp hlen2 hpos
        cases buf with
        | nil => exact absurd rfl hp
        | cons b bs =>
          simp only
          have hk : l.length ≤ k := by simpa using hlen
          have hr : rest.length ≤ l.length := by simp at hlen2; omega
          congr 1
          funext st1
          rw [ih k (Nat.lt_succ_self k) st1 rest (by omega),
            ih l.length (by omega) st1 rest hr]


theorem line_text_eq (l : List Char) (hnl : '\n' ∉ l) (h0 : NUL ∉ l) :
    line_text l = l ∧ line_text (l ++ ['\n']) = l := by
  have hn : ∀ a ∈ l, (a != '\n') = true := fun a ha =>
    bne_iff_ne.mpr (fun h => hnl (h ▸ ha))
  have h1 : cstr l = l := cstr_eq_self l (fun c hc' h => h0 (h ▸ hc'))
  have h2 : cstr (l ++ ['\n']) = l ++ ['\n'] := by
    apply cstr_eq_self
    intro c hc'
    rcases List.mem_append.mp hc' with h | h
    · exact fun e => h0 (e ▸ h)
    · simp at h; subst h; decide
  constructor
  · unfold line_text
    rw [h1, List.takeWhile_eq_self_iff]
    exact hn
  · unfold line_text
    rw [h2]
    exact (takeWhile_stop l ['\n'] hn (by simp)).1

theorem process_line_newline (st : ParseState) (l : List Char) (hnl : '\n' ∉ l)
    (h0 : NUL ∉ l) : process_line st (l ++ ['\n']) = process_line st l := by
  obtain ⟨h1, h2⟩ := line_text_eq l hnl h0
  simp only [process_line, line_key, line_value, h1, h2]

theorem parse_lines_nil (fuel : Nat) (st : ParseState) : parse_lines fuel st [] = some st := by
  cases fuel <;> simp [parse_lines, fgets]

theorem parse_lines_step (fuel : Nat) (st : ParseState) (input buf rest : List Char)
    (hf : fgets 1023 input = (buf, rest)) (hb : buf ≠ []) (hfuel : rest.length ≤ fuel) :
    parse_lines (fuel + 1) st input
      = (process_line st buf).bind (fun st1 => parse_lines rest.length st1 rest) := by
  simp only [parse_lines, hf]
  cases buf with
  | nil => exact absurd rfl hb
  | cons b bs =>
    congr 1
    funext st1
    exact parse_lines_fuel fuel st1 rest hfuel

theorem parse_lines_unlines (lines : List (List Char)) : ∀ (st : ParseState) (last : List Char),
    (∀ l ∈ lines, fits_buffer l) → fits_buffer last →
    parse_lines (unlines lines ++ last).length st (unlines lines ++ last)
      = process_lines st (lines ++ [last]) := by
  induction lines with
  | nil =>
    intro st last _ hlast
    simp only [unlines, List.nil_append]
    cases last with
    | nil =>
      have : process_line st [] = some st := by simp [process_line, line_text, cstr]
      simp [parse_lines, process_lines, this]
    | cons c l =>
      rw [List.length_cons, parse_lines_step l.length st (c :: l) (c :: l) []
        (fgets_last _ _ hlast.1 hlast.2.2) (by simp) (by simp)]
      simp [process_lines, parse_lines]
  | cons l ls ih =>
    intro st last hls hlast
    have hl : fits_buffer l := hls l (by simp)
    have hls' : ∀ x ∈ ls, fits_buffer x := fun x hx => hls x (by simp [hx])
    have hunl : unlines (l :: ls) ++ last = l ++ '\n' :: (unlines ls ++ last) := by
      simp [unlines]
    rw [hunl]
    simp only [List.cons_append, process_lines]
    rw [← process_line_newline st l hl.1 hl.2.1]
    by_cases hlen : l.length < 1023
    · have hlen1 : (l ++ '\n' :: (unlines ls ++ last)).length
          = (l.length + (unlines ls ++ last).length) + 1 := by simp; omega
      rw [hlen1, parse_lines_step _ st _ (l ++ ['\n']) (unlines ls ++ last)
        (fgets_short l 1023 _ hl.1 hlen) (by simp) (by omega)]
      congr 1
      funext st1
      exact ih st1 last hls' hlast
    · have hfull : l.length = 1023 := by have := hl.2.2; omega
      have hlen1 : (l ++ '\n' :: (unlines ls ++ last)).length
          = (l.length + (unlines ls ++ last).length) + 1 := by simp; omega
      rw [hlen1, parse_lines_step _ st _ l ('\n' :: (unlines ls ++ last))
        (fgets_full l 1023 _ hl.1 hfull) (by intro h; simp [h] at hfull) (by simp; omega)]
      rw [process_line_newline st l hl.1 hl.2.1]
      congr 1
      funext st1
      have hnl : process_line st1 ['\n'] = some st1 := by
        simp [process_line, line_text, cstr, NUL]
      have hf2 : fgets 1023 ('\n' :: (unlines ls ++ last)) = (['\n'], unlines ls ++ last) := by
        simp [fgets]
      rw [List.length_cons, parse_lines_step _ st1 _ ['\n'] (unlines ls ++ last) hf2 (by simp)
        (le_refl _), hnl]
      exact ih st1 last hls' hlast

theorem store_header (st : ParseState) (c d : Component) (hcur : st.cursor = some c)
    (hh : d.header = c.header) :
    (st.store d).components.map Component.header = st.components.map Component.header := by
  unfold ParseState.cursor at hcur
  unfold ParseState.store
  cases hi : st.current with
  | none => simp [hi] at hcur
  | some i =>
    simp only [hi, Option.some_bind] at hcur
    simp only
    apply List.ext_getElem?
    intro k
    by_cases hk : i = k
    · subst hk
      obtain ⟨hlt, hget⟩ := List.getElem?_eq_some.mp hcur
      simp [List.getElem?_map, List.getElem?_set, hlt, hget, hh]
    · simp [List.getElem?_map, List.getElem?_set, hk]

theorem apply_key_attribute_header (st : ParseState) (key value : List Char)
    (hs : starter_type key = none) :
    ∃ st1, apply_key st key value = some st1
      ∧ st1.components.map Component.header = st.components.map Component.header := by
  have h1 : key ≠ "node".toList := fun h => by subst h; revert hs; decide
  have h2 : key ≠ "pipe".toList := fun h => by subst h; revert hs; decide
  have h3 : key ≠ "concatenate".toList := fun h => by subst h; revert hs; decide
  have h4 : key ≠ "stderr".toList := fun h => by subst h; revert hs; decide
  have h5 : key ≠ "file".toList := fun h => by subst h; revert hs; decide
  unfold apply_key
  simp only [h1, h2, h3, h4, h5, if_false]
  cases hcur : st.cursor with
  | none => simp
  | some c =>
    cases c <;> simp only <;> split_ifs <;> refine ⟨_, rfl, ?_⟩ <;>
      first
        | exact store_header st _ _ hcur rfl
        | rfl

theorem starter_type_cases (key : List Char) (t : ComponentType)
    (hs : starter_type key = some t) :
    (key = "node".toList ∧ t = .TYPE_NODE) ∨ (key = "pipe".toList ∧ t = .TYPE_PIPE)
      ∨ (key = "concatenate".toList ∧ t = .TYPE_CONCATENATE)
      ∨ (key = "stderr".toList ∧ t = .TYPE_STDERR) ∨ (key = "file".toList ∧ t = .TYPE_FILE) := by
  unfold starter_type at hs
  by_cases g1 : key = "node".toList
  · rw [if_pos g1] at hs; exact Or.inl ⟨g1, (Option.some.inj hs).symm⟩
  rw [if_neg g1] at hs
  by_cases g2 : key = "pipe".toList
  · rw [if_pos g2] at hs; exact Or.inr (Or.inl ⟨g2, (Option.some.inj hs).symm⟩)
  rw [if_neg g2] at hs
  by_cases g3 : key = "concatenate".toList
  · rw [if_pos g3] at hs; exact Or.inr (Or.inr (Or.inl ⟨g3, (Option.some.inj hs).symm⟩))
  rw [if_neg g3] at hs
  by_cases g4 : key = "stderr".toList
  · rw [if_pos g4] at hs
    exact Or.inr (Or.inr (Or.inr (Or.inl ⟨g4, (Option.some.inj hs).symm⟩)))
  rw [if_neg g4] at hs
  by_cases g5 : key = "file".toList
  · rw [if_pos g5] at hs
    exact Or.inr (Or.inr (Or.inr (Or.inr ⟨g5, (Option.some.inj hs).symm⟩)))
  rw [if_neg g5] at hs
  exact absurd hs (by simp)

theorem apply_key_starter_header (st : ParseState) (key value : List Char) (t : ComponentType)
    (hs : starter_type key = some t) (hroom : st.components.length < MAX_COMPONENTS) :
    ∃ st1, apply_key st key value = some st1
      ∧ st1.components.map Component.header
          = st.components.map Component.header ++ [(t, value.take 255)] := by
  have hnew : ∀ c : Component, ∃ st1, new_component st c = some st1
      ∧ st1.components.map Component.header
          = st.components.map Component.header ++ [c.header] := by
    intro c
    refine ⟨{ components := st.components ++ [c], current := some st.components.length }, ?_, ?_⟩
    · simp only [new_component, hroom, if_true]
    · simp
  rcases starter_type_cases key t hs with h | h | h | h | h
  all_goals
    obtain ⟨rfl, rfl⟩ := h
    unfold apply_key
    rw [if_pos rfl]
    exact hnew _


theorem process_line_header (st : ParseState) (l : List Char) (hl : fits_buffer l) :
    (∀ h, header_of_line l = some h → st.components.length < MAX_COMPONENTS →
        ∃ st1, process_line st l = some st1
          ∧ st1.components.map Component.header = st.components.map Component.header ++ [h])
      ∧ (header_of_line l = none →
        ∃ st1, process_line st l = some st1
          ∧ st1.components.map Component.header = st.components.map Component.header) := by
  have ht := (line_text_eq l hl.1 hl.2.1).1
  unfold process_line header_of_line
  simp only [line_key, line_value, ht]
  by_cases he : l.isEmpty = true
  · have : l = [] := by simpa using he
    subst this
    simp
  by_cases hc : l.contains '=' = true
  · simp only [he, hc, Bool.not_true, Bool.false_eq_true, if_false, if_true]
    cases hs : starter_type (List.takeWhile (fun c => c != '=') l) with
    | none =>
      refine ⟨fun h hh => by simp at hh, fun _ => ?_⟩
      exact apply_key_attribute_header st _ _ hs
    | some t =>
      refine ⟨fun h hh hroom => ?_, fun hh => by simp at hh⟩
      simp only [Option.map_some', Option.some.injEq] at hh
      subst hh
      exact apply_key_starter_header st _ _ t hs hroom
  · simp only [he, hc, Bool.not_false, Bool.false_eq_true, if_false, if_true]
    exact ⟨fun h hh => by simp at hh, fun _ => ⟨st, rfl, rfl⟩⟩

theorem process_lines_headers (ls : List (List Char)) : ∀ (st : ParseState),
    (∀ l ∈ ls, fits_buffer l) →
    st.components.length + (ls.filterMap header_of_line).length ≤ MAX_COMPONENTS →
    ∃ st1, process_lines st ls = some st1
      ∧ st1.components.map Component.header
          = st.components.map Component.header ++ ls.filterMap header_of_line := by
  induction ls with
  | nil => intro st _ _; exact ⟨st, rfl, by simp⟩
  | cons l ls ih =>
    intro st hfit hroom
    have hl := hfit l (by simp)
    have hls : ∀ x ∈ ls, fits_buffer x := fun x hx => hfit x (by simp [hx])
    obtain ⟨hsome, hnone⟩ := process_line_header st l hl
    cases hh : header_of_line l with
    | none =>
      obtain ⟨st1, h1, h2⟩ := hnone hh
      have hlen : st1.components.length = st.components.length := by
        simpa using congrArg List.length h2
      have hroom1 : st1.components.length + (ls.filterMap header_of_line).length
          ≤ MAX_COMPONENTS := by
        simp only [List.filterMap_cons, hh] at hroom
        omega
      obtain ⟨st2, h3, h4⟩ := ih st1 hls hroom1
      exact ⟨st2, by simp [process_lines, h1, h3], by simp [h4, h2, hh]⟩
    | some h =>
      simp only [List.filterMap_cons, hh, List.length_cons] at hroom
      obtain ⟨st1, h1, h2⟩ := hsome h hh (by omega)
      have hlen : st1.components.length = st.components.length + 1 := by
        simpa using congrArg List.length h2
      obtain ⟨st2, h3, h4⟩ := ih st1 hls (by omega)
      exact ⟨st2, by simp [process_lines, h1, h3], by simp [h4, h2, hh]⟩

/-- C4, amended: the registry reflects file order.  For a text without NUL whose lines are
at most 1023 characters long (`lines`, each ended by a newline, then `last`, possibly empty,
without one) and with at most 100 component-starting lines, parsing succeeds and the registry
holds exactly one component for each line whose key is `node`, `pipe`, `concatenate`,
`stderr` or `file`, in file order, with the type the key selects and the value cut to 255
characters as its name; lines declaring the same name give separate entries. -/
theorem registry_reflects_file_order (lines : List (List Char)) (last : List Char)
    (hfit : ∀ l ∈ lines ++ [last], fits_buffer l)
    (hcount : ((lines ++ [last]).filterMap header_of_line).length ≤ MAX_COMPONENTS) :
    ∃ st, parse_flow_text (unlines lines ++ last) = some st
      ∧ st.components.map Component.header = (lines ++ [last]).filterMap header_of_line := by
  have h1 : ∀ l ∈ lines, fits_buffer l := fun l hl => hfit l (by simp [hl])
  have h2 : fits_buffer last := hfit last (by simp)
  unfold parse_flow_text
  rw [parse_lines_unlines lines {} last h1 h2]
  obtain ⟨st, hst, hh⟩ := process_lines_headers (lines ++ [last]) {} hfit (by simpa using hcount)
  exact ⟨st, hst, by simpa using hh⟩

/-- Witness of C4: two components declared with the same name stay two entries. -/
theorem registry_reflects_file_order_witness :
    ∃ st, parse_flow_text "node=A\ncommand=ls\npipe=A\nfrom=x\n".toList = some st
      ∧ st.components.map Component.header
          = [(.TYPE_NODE, "A".toList), (.TYPE_PIPE, "A".toList)] :=
  registry_reflects_file_order
    ["node=A".toList, "command=ls".toList, "pipe=A".toList, "from=x".toList] []
    (by decide) (by decide)

set_option maxRecDepth 1000000 in
/-- C4 as stated fails on a line longer than the buffer: the only line of this text has the
key `xx...xnode`, which starts no component, yet `fgets` hands its tail `node=A` over as a
line of its own and the registry receives a Node named `A`. -/
theorem registry_long_line_counterexample :
    ∃ st, parse_flow_text (List.replicate 1023 'x' ++ "node=A\n".toList) = some st
      ∧ st.components.map Component.header = [(.TYPE_NODE, "A".toList)]
      ∧ [List.replicate 1023 'x' ++ "node=A".toList, []].filterMap header_of_line = [] :=
  ⟨{ components := [.node { name := "A".toList }], current := some 0 },
    by decide, by decide, by decide⟩

theorem key_value_split (k v : List Char) (hk : '=' ∉ k) :
    (k ++ '=' :: v).takeWhile (fun c => c != '=') = k
      ∧ ((k ++ '=' :: v).dropWhile (fun c => c != '=')).drop 1 = v := by
  have h := takeWhile_stop (p := fun c => c != '=') k ('=' :: v)
    (fun a ha => bne_iff_ne.mpr (fun e => hk (e ▸ ha))) (by simp)
  rw [h.1, h.2]
  simp

theorem process_line_key_value (st : ParseState) (k v : List Char) (hk : '=' ∉ k)
    (hfit : '\n' ∉ k ++ '=' :: v ∧ NUL ∉ k ++ '=' :: v) :
    process_line st (k ++ '=' :: v) = apply_key st k v := by
  have ht := (line_text_eq _ hfit.1 hfit.2).1
  obtain ⟨h1, h2⟩ := key_value_split k v hk
  unfold process_line
  simp only [line_key, line_value, ht, h1, h2]
  have hne : (k ++ '=' :: v).isEmpty = false := by cases k <;> rfl
  have hc : (k ++ '=' :: v).contains '=' = true := by simp
  simp [hne, hc]

/-- C3: parse then resolve a Node.  For a name `n` of at most 255 characters and a command
`c` whose line `command=c` fits the 1023-character buffer, neither holding a newline (or
NUL), parsing the two lines `node=n`, `command=c` and resolving `n` gives a Node with name
`n` and command exactly `c`: later `=` and surrounding blanks of `c` are kept. -/
theorem parse_then_resolve_node (n c : List Char)
    (hn : '\n' ∉ n ∧ NUL ∉ n) (hc : '\n' ∉ c ∧ NUL ∉ c)
    (hname : n.length ≤ 255) (hline : ("command=".toList ++ c).length ≤ 1023) :
    ∃ st, parse_flow_text ("node=".toList ++ n ++ '\n' :: ("command=".toList ++ c ++ ['\n']))
        = some st
      ∧ find_component st.components n = some (.node { name := n, command := c }) := by
  have e1 : "node=".toList ++ n = "node".toList ++ '=' :: n := rfl
  have e2 : "command=".toList ++ c = "command".toList ++ '=' :: c := rfl
  have hnl1 : '\n' ∉ "node".toList ++ '=' :: n := by
    intro h
    rcases List.mem_append.mp h with h | h
    · revert h; decide
    · rcases List.mem_cons.mp h with h | h
      · revert h; decide
      · exact hn.1 h
  have hz1 : NUL ∉ "node".toList ++ '=' :: n := by
    intro h
    rcases List.mem_append.mp h with h | h
    · revert h; decide
    · rcases List.mem_cons.mp h with h | h
      · revert h; decide
      · exact hn.2 h
  have hnl2 : '\n' ∉ "command".toList ++ '=' :: c := by
    intro h
    rcases List.mem_append.mp h with h | h
    · revert h; decide
    · rcases List.mem_cons.mp h with h | h
      · revert h; decide
      · exact hc.1 h
  have hz2 : NUL ∉ "command".toList ++ '=' :: c := by
    intro h
    rcases List.mem_append.mp h with h | h
    · revert h; decide
    · rcases List.mem_cons.mp h with h | h
      · revert h; decide
      · exact hc.2 h
  have hf1 : fits_buffer ("node=".toList ++ n) := by
    refine ⟨e1 ▸ hnl1, e1 ▸ hz1, ?_⟩
    have : ("node=".toList ++ n).length = 5 + n.length := by
      rw [List.length_append]; rfl
    omega
  have hf2 : fits_buffer ("command=".toList ++ c) := ⟨e2 ▸ hnl2, e2 ▸ hz2, hline⟩
  have htext : "node=".toList ++ n ++ '\n' :: ("command=".toList ++ c ++ ['\n'])
      = unlines ["node=".toList ++ n, "command=".toList ++ c] ++ [] := by
    simp [unlines]
  have hcmd : strncpy c (MAX_COMMAND - 1) = c := by
    have : c.length ≤ 1023 := by
      have h := hline
      rw [List.length_append] at h
      omega
    exact List.take_of_length_le this
  have hnm : strncpy n (MAX_NAME - 1) = n := List.take_of_length_le hname
  have hempty : ∀ st : ParseState, process_line st [] = some st := fun st => by
    simp [process_line, line_text, cstr]
  unfold parse_flow_text
  rw [htext, parse_lines_unlines _ {} []
    (by intro l hl; simp at hl; rcases hl with rfl | rfl <;> assumption)
    (by unfold fits_buffer; decide)]
  simp only [List.cons_append, List.nil_append, process_lines, e1, e2,
    process_line_key_value _ _ _ (by decide : '=' ∉ "node".toList) ⟨hnl1, hz1⟩,
    process_line_key_value _ _ _ (by decide : '=' ∉ "command".toList) ⟨hnl2, hz2⟩, hempty]
  refine ⟨{ components := [.node { name := n, command := c }], current := some 0 }, ?_, ?_⟩
  · unfold apply_key
    rw [if_pos rfl]
    simp only [new_component, hnm, hcmd, MAX_COMPONENTS]
    simp +decide [apply_key, ParseState.cursor, ParseState.store, hcmd]
  · simp [find_component]

/-- Witness of C3: `node=A`, `command=echo hi` resolves `A` to a Node with command `echo hi`. -/
theorem parse_then_resolve_node_witness :
    ∃ st, parse_flow_text "node=A\ncommand=echo hi\n".toList = some st
      ∧ find_component st.components "A".toList
          = some (.node { name := "A".toList, command := "echo hi".toList }) :=
  parse_then_resolve_node "A".toList "echo hi".toList (by decide) (by decide) (by decide)
    (by decide)

/-! ## Executor -/

/-- C8: pipe endpoints must resolve.  When `from` or `to` names no component, `execute_pipe`
does nothing but look both names up, print the diagnostic naming the missing reference
(`from` if it is missing, otherwise `to`) and exit with status 1: no pipe is created and no
child is spawned, so with only `to` missing the `from` component is never executed. -/
theorem execute_pipe_unresolved (os : OS) (reg : List Component)
    (exec : Proc → Component → Run) (p : Proc) (pipe_comp : Pipe)
    (h : find_component reg pipe_comp.from_ = none ∨ find_component reg pipe_comp.to_ = none) :
    execute_pipe os reg exec p pipe_comp
        = ⟨[.resolve pipe_comp.from_, .resolve pipe_comp.to_,
            .eprint (component_not_found
              (if find_component reg pipe_comp.from_ = none then pipe_comp.from_
                else pipe_comp.to_)),
            .exit 1], none⟩
      ∧ children (execute_pipe os reg exec p pipe_comp).acts = []
      ∧ exit_status (execute_pipe os reg exec p pipe_comp).acts = some 1 := by
  unfold execute_pipe
  cases hf : find_component reg pipe_comp.from_ with
  | none => simp [children, exit_status]
  | some fc =>
    cases ht : find_component reg pipe_comp.to_ with
    | none => simp [children, exit_status]
    | some tc => simp [hf, ht] at h

/-- Witness of C8: `to` names no component; the Node `a` named by `from` is not run. -/
theorem execute_pipe_unresolved_witness :
    execute_pipe (fun _ => true) [.node { name := "a".toList, command := "ls".toList }]
        (fun _ _ => ⟨[], none⟩) {} { name := "p".toList, from_ := "a".toList, to_ := "b".toList }
        = ⟨[.resolve "a".toList, .resolve "b".toList,
            .eprint (component_not_found
              (if find_component [.node { name := "a".toList, command := "ls".toList }]
                  "a".toList = none then "a".toList else "b".toList)),
            .exit 1], none⟩
      ∧ children (execute_pipe (fun _ => true)
          [.node { name := "a".toList, command := "ls".toList }]
          (fun _ _ => ⟨[], none⟩) {}
          { name := "p".toList, from_ := "a".toList, to_ := "b".toList }).acts = []
      ∧ exit_status (execute_pipe (fun _ => true)
          [.node { name := "a".toList, command := "ls".toList }]
          (fun _ _ => ⟨[], none⟩) {}
          { name := "p".toList, from_ := "a".toList, to_ := "b".toList }).acts = some 1 :=
  execute_pipe_unresolved _ _ _ _ _ (Or.inr (by decide))

theorem fd_get_cons (a b : Nat) (t : FdTable) (fd : Nat) :
    fd_get ((a, b) :: t) fd = if a = fd then some b else fd_get t fd := by
  by_cases h : a = fd <;> simp [fd_get, List.find?_cons, h]

theorem fd_get_close (t : FdTable) (x fd : Nat) :
    fd_get (sys_close t x) fd = if fd = x then none else fd_get t fd := by
  induction t with
  | nil => simp [sys_close, fd_get]
  | cons e t ih =>
    obtain ⟨a, b⟩ := e
    have hc : sys_close ((a, b) :: t) x
        = if a = x then sys_close t x else (a, b) :: sys_close t x := by
      by_cases h : a = x <;> simp [sys_close, List.filter_cons, h]
    rw [hc]
    by_cases h : a = x
    · rw [if_pos h, ih, fd_get_cons]
      by_cases h2 : fd = x
      · simp [h2]
      · have : a ≠ fd := fun e => h2 (e ▸ h)
        simp [h2, this]
    · rw [if_neg h, fd_get_cons, fd_get_cons, ih]
      by_cases h2 : a = fd
      · have : fd ≠ x := fun e => h (h2.trans e)
        simp [h2, this]
      · simp [h2]

theorem fd_get_dup2 (t : FdTable) (oldfd newfd d fd : Nat) (hd : fd_get t oldfd = some d)
    (hne : oldfd ≠ newfd) :
    fd_get (sys_dup2 t oldfd newfd) fd = if fd = newfd then some d else fd_get t fd := by
  unfold sys_dup2
  rw [hd]
  simp only [hne, if_false]
  rw [fd_get_cons, fd_get_close]
  by_cases h : newfd = fd
  · simp [h]
  · have : fd ≠ newfd := fun e => h e.symm
    simp [h, this]

theorem lowest_free_spec (t : FdTable) (r : Nat) (h : lowest_free t = some r) :
    fd_get t r = none := by
  unfold lowest_free at h
  have := List.find?_some h
  simpa using this

theorem lowest_free_least (t : FdTable) (r : Nat) (h : lowest_free t = some r) :
    ∀ j, j < r → fd_get t j ≠ none := by
  unfold lowest_free at h
  rw [List.find?_range_eq_some] at h
  intro j hj hn
  have := h.2.2 j hj
  simp [hn] at this

theorem fd_get_mem (t : FdTable) (fd d : Nat) (h : fd_get t fd = some d) : (fd, d) ∈ t := by
  unfold fd_get at h
  cases hf : t.find? (fun e => e.1 == fd) with
  | none => simp [hf] at h
  | some e =>
    simp only [hf, Option.map_some', Option.some.injEq] at h
    have h1 := List.find?_some hf
    have h2 := List.mem_of_find?_eq_some hf
    have : e = (fd, d) := by
      obtain ⟨a, b⟩ := e
      simp at h1 h
      simp [h1, h]
    exact this ▸ h2

theorem lowest_free_isSome (t : FdTable) : ∃ r, lowest_free t = some r := by
  cases h : lowest_free t with
  | some r => exact ⟨r, rfl⟩
  | none =>
    exfalso
    unfold lowest_free at h
    rw [List.find?_eq_none] at h
    have hsub : List.range (t.length + 1) ⊆ t.map (fun e => e.1) := by
      intro fd hfd
      have hopen := h fd hfd
      cases hg : fd_get t fd with
      | none => simp [hg] at hopen
      | some d => exact List.mem_map.mpr ⟨(fd, d), fd_get_mem t fd d hg, rfl⟩
    have hle := ((List.nodup_range (t.length + 1)).subperm hsub).length_le
    simp at hle

theorem le_foldr_max (l : List Nat) (x : Nat) (h : x ∈ l) : x ≤ l.foldr max 0 := by
  induction l with
  | nil => simp at h
  | cons a l ih =>
    simp only [List.foldr_cons]
    rcases List.mem_cons.mp h with h | h
    · subst h; exact Nat.le_max_left _ _
    · exact Nat.le_trans (ih h) (Nat.le_max_right _ _)

theorem fresh_ofd_spec (t : FdTable) (fd d : Nat) (h : fd_get t fd = some d) :
    d < fresh_ofd t := by
  have hm := fd_get_mem t fd d h
  have : d ∈ t.map (fun e => e.2) := List.mem_map.mpr ⟨(fd, d), hm, rfl⟩
  have := le_foldr_max _ d this
  unfold fresh_ofd
  omega

theorem execute_node_cont (os : OS) (p : Proc) (n : Node) : (execute_node os p n).cont = none := by
  unfold execute_node
  dsimp only
  split_ifs <;> rfl

theorem child_acts_execute_node (os : OS) (p : Proc) (n : Node) :
    child_acts (execute_node os p n) = (execute_node os p n).acts := by
  unfold child_acts
  rw [execute_node_cont]

/-- C9 as stated fails in two ways.  When `fork` fails, `from` resolves to a Node and yet no
child is spawned.  When descriptor 1 is closed, `dup2(1, 2)` changes nothing and the command
is launched with descriptor 2 still open on the old standard error, not a duplicate of its
standard output. -/
theorem execute_stderr_counterexample :
    (find_component [.node { name := "n".toList, command := "ls".toList }] "n".toList
          = some (.node { name := "n".toList, command := "ls".toList })
        ∧ children (execute_stderr (fun _ => false)
            [.node { name := "n".toList, command := "ls".toList }] {}
            { name := "s".toList, from_ := "n".toList }).acts = [])
      ∧ (execute_stderr (fun _ => true)
            [.node { name := "n".toList, command := "ls".toList }] { fds := [(0, 0), (2, 2)] }
            { name := "s".toList, from_ := "n".toList }).acts
          = [.resolve "n".toList,
              .fork 0 [.dup2 1 2, .execvp ["ls".toList] [(0, 0), (2, 2)]], .waitpid 0] :=
  ⟨⟨by decide, by rfl⟩, by rfl⟩

/-- C9, amended: StderrRedirect applies only to Nodes.  Provided `fork` succeeds, executing a
StderrRedirect spawns a child if and only if `from` resolves to a Node.  When `from` is
unresolved or is not a Node the process exits with status 1 and spawns nothing.  When it is
a Node, one child is spawned, it calls `dup2(1, 2)` and then launches the Node's command with
that descriptor table, in which, descriptor 1 being open, descriptors 1 and 2 refer to the
same open file description; the parent waits for that child and returns. -/
theorem execute_stderr_only_nodes (os : OS) (reg : List Component) (p : Proc) (serr : Stderr)
    (hfork : sys_ok os p = true) :
    ((children (execute_stderr os reg p serr).acts ≠ []
        ↔ ∃ n, find_component reg serr.from_ = some (.node n))
      ∧ ((∀ n, find_component reg serr.from_ ≠ some (.node n)) →
          children (execute_stderr os reg p serr).acts = []
            ∧ exit_status (execute_stderr os reg p serr).acts = some 1
            ∧ (execute_stderr os reg p serr).cont = none)
      ∧ (∀ n, find_component reg serr.from_ = some (.node n) →
          (execute_stderr os reg p serr).acts
              = [.resolve serr.from_,
                  .fork p.calls (.dup2 STDOUT_FILENO STDERR_FILENO ::
                    (execute_node os { p.child p.calls with
                      fds := sys_dup2 p.fds STDOUT_FILENO STDERR_FILENO } n).acts),
                  .waitpid p.calls]
            ∧ (execute_stderr os reg p serr).cont = some p.tick
            ∧ ∀ d, fd_get p.fds STDOUT_FILENO = some d →
                fd_get (sys_dup2 p.fds STDOUT_FILENO STDERR_FILENO) STDERR_FILENO = some d
                  ∧ fd_get (sys_dup2 p.fds STDOUT_FILENO STDERR_FILENO) STDOUT_FILENO = some d)) := by
  have hdup : ∀ d, fd_get p.fds STDOUT_FILENO = some d →
      fd_get (sys_dup2 p.fds STDOUT_FILENO STDERR_FILENO) STDERR_FILENO = some d
        ∧ fd_get (sys_dup2 p.fds STDOUT_FILENO STDERR_FILENO) STDOUT_FILENO = some d := by
    intro d hd
    have hne : STDOUT_FILENO ≠ STDERR_FILENO := by decide
    rw [fd_get_dup2 _ _ _ d _ hd hne, fd_get_dup2 _ _ _ d _ hd hne]
    simp [hne, hd]
  unfold execute_stderr
  cases hf : find_component reg serr.from_ with
  | none => simp [children, exit_status]
  | some c =>
    cases c with
    | node n =>
      simp only [sys_fork, hfork, if_true, child_acts_execute_node]
      refine ⟨by simp [children], fun h => absurd rfl (h n), fun m hm => ?_⟩
      have : n = m := by simpa using hm
      subst this
      exact ⟨rfl, trivial, hdup⟩
    | pipe x => simp [children, exit_status]
    | concat x => simp [children, exit_status]
    | stderr x => simp [children, exit_status]
    | file x => simp [children, exit_status]

/-- Witness of C9: a StderrRedirect over a Pipe is refused. -/
theorem execute_stderr_only_nodes_witness :
    children (execute_stderr (fun _ => true) [.pipe { name := "q".toList }] {}
        { name := "s".toList, from_ := "q".toList }).acts = []
      ∧ exit_status (execute_stderr (fun _ => true) [.pipe { name := "q".toList }] {}
        { name := "s".toList, from_ := "q".toList }).acts = some 1
      ∧ (execute_stderr (fun _ => true) [.pipe { name := "q".toList }] {}
        { name := "s".toList, from_ := "q".toList }).cont = none :=
  (execute_stderr_only_nodes (fun _ => true) [.pipe { name := "q".toList }] {}
    { name := "s".toList, from_ := "q".toList } rfl).2.1
    (fun n h => by simp [find_component] at h)

theorem exit_status_append (l m : List Act) (hm : m ≠ []) :
    exit_status (l ++ m) = exit_status m := by
  unfold exit_status
  rw [List.getLast?_append_of_ne_nil l hm]

theorem concatenate_loop_oob (os : OS) (reg : List Component) (exec : Proc → Component → Run)
    (concat : Concatenate) (todo i : Nat) (p : Proc) (hn : concat.part_names[i]? = none) :
    concatenate_loop os reg exec concat (todo + 1) i p = ⟨[.out_of_bounds i], none⟩ := by
  rw [concatenate_loop]
  simp only [hn]

theorem concatenate_loop_missing (os : OS) (reg : List Component)
    (exec : Proc → Component → Run) (concat : Concatenate) (todo i : Nat) (p : Proc)
    (name : List Char) (hn : concat.part_names[i]? = some name)
    (hf : find_component reg name = none) :
    concatenate_loop os reg exec concat (todo + 1) i p
      = ⟨[.resolve name, .eprint (part_not_found name), .exit 1], none⟩ := by
  rw [concatenate_loop]
  simp only [hn, hf]

theorem concatenate_loop_fork_failed (os : OS) (reg : List Component)
    (exec : Proc → Component → Run) (concat : Concatenate) (todo i : Nat) (p : Proc)
    (name : List Char) (part : Component) (hn : concat.part_names[i]? = some name)
    (hf : find_component reg name = some part) (hk : sys_ok os p = false) :
    concatenate_loop os reg exec concat (todo + 1) i p
      = ⟨[.resolve name, .perror "fork".toList, .exit 1], none⟩ := by
  rw [concatenate_loop]
  simp only [hn, hf, sys_fork, hk, Bool.false_eq_true, if_false]

theorem concatenate_loop_step (os : OS) (reg : List Component)
    (exec : Proc → Component → Run) (concat : Concatenate) (todo i : Nat) (p : Proc)
    (name : List Char) (part : Component) (hn : concat.part_names[i]? = some name)
    (hf : find_component reg name = some part) (hk : sys_ok os p = true) :
    concatenate_loop os reg exec concat (todo + 1) i p
      = ⟨[.resolve name, .fork p.calls (child_acts (exec (p.child p.calls) part)),
            .waitpid p.calls]
          ++ (concatenate_loop os reg exec concat todo (i + 1) p.tick).acts,
          (concatenate_loop os reg exec concat todo (i + 1) p.tick).cont⟩ := by
  rw [concatenate_loop]
  simp only [hn, hf, sys_fork, hk, if_true]

theorem concatenate_loop_eprint (os : OS) (reg : List Component)
    (exec : Proc → Component → Run) (concat : Concatenate) :
    ∀ (todo i : Nat) (p : Proc) (msg : List Char),
      Act.eprint msg ∈ (concatenate_loop os reg exec concat todo i p).acts →
      exit_status (concatenate_loop os reg exec concat todo i p).acts = some 1
        ∧ (concatenate_loop os reg exec concat todo i p).cont = none := by
  intro todo
  induction todo with
  | zero => intro i p msg h; simp [concatenate_loop] at h
  | succ k ih =>
    intro i p msg h
    cases hn : concat.part_names[i]? with
    | none =>
      rw [concatenate_loop_oob _ _ _ _ _ _ _ hn] at h
      simp at h
    | some nm =>
      cases hf : find_component reg nm with
      | none =>
        rw [concatenate_loop_missing _ _ _ _ _ _ _ _ hn hf]
        simp [exit_status]
      | some part =>
        cases hk : sys_ok os p with
        | false =>
          rw [concatenate_loop_fork_failed _ _ _ _ _ _ _ _ _ hn hf hk] at h
          simp at h
        | true =>
          rw [concatenate_loop_step _ _ _ _ _ _ _ _ _ hn hf hk] at h ⊢
          simp only [List.mem_append, List.mem_cons, List.mem_singleton,
            reduceCtorEq, false_or, List.not_mem_nil, or_false] at h
          have hrest := ih (i + 1) p.tick msg h
          refine ⟨?_, hrest.2⟩
          simp only
          rw [exit_status_append _ _ (List.ne_nil_of_mem h)]
          exact hrest.1

theorem execute_component_eprint (os : OS) (reg : List Component) (depth : Nat) (p : Proc)
    (comp : Component) (msg : List Char)
    (h : Act.eprint msg ∈ (execute_component os reg depth p comp).acts) :
    exit_status (execute_component os reg depth p comp).acts = some 1
      ∧ (execute_component os reg depth p comp).cont = none := by
  cases depth with
  | zero => simp [execute_component] at h
  | succ d =>
    cases comp with
    | node n =>
      simp only [execute_component, execute_node] at h
      split_ifs at h <;> simp at h
    | pipe pc =>
      simp only [execute_component] at h ⊢
      unfold execute_pipe at h ⊢
      cases hf : find_component reg pc.from_ with
      | none => simp [exit_status]
      | some fc =>
        cases ht : find_component reg pc.to_ with
        | none => simp [exit_status]
        | some tc =>
          simp only [hf, ht] at h
          cases hp : sys_pipe os p with
          | none => simp [hp] at h
          | some r =>
            obtain ⟨r, w, p1⟩ := r
            simp only [hp] at h
            cases h1 : sys_fork os p1 with
            | none => simp [h1] at h
            | some r1 =>
              obtain ⟨pid1, c1, p2⟩ := r1
              simp only [h1] at h
              cases h2 : sys_fork os p2 with
              | none => simp [h2] at h
              | some r2 =>
                obtain ⟨pid2, c2, p3⟩ := r2
                simp [h2] at h
    | concat c =>
      simp only [execute_component, execute_concatenate] at h ⊢
      exact concatenate_loop_eprint os reg _ c _ 0 p msg h
    | stderr e =>
      simp only [execute_component] at h ⊢
      unfold execute_stderr at h ⊢
      cases hf : find_component reg e.from_ with
      | none => simp [exit_status]
      | some c =>
        cases c with
        | node n =>
          simp only [hf] at h
          cases hk : sys_fork os p with
          | none => simp [hk] at h
          | some r => simp [hk] at h
        | pipe x => simp [exit_status]
        | concat x => simp [exit_status]
        | stderr x => simp [exit_status]
        | file x => simp [exit_status]
    | file f => simp [execute_component, exit_status]


/-- C10 as stated fails: the target is a Concatenate whose only part is a Pipe with an
undefined `from`.  The child that runs the Pipe reports `Component 'X' not found` and exits
with status 1; the orchestrating process collects it, ignores its status and exits with 0. -/
theorem exit_status_counterexample :
    main (fun _ => true) 3 ["flow".toList, "f".toList, "C".toList]
        (some "concatenate=C\nparts=1\npart_0=P\npipe=P\nfrom=X\nto=Y\n".toList) {}
        = [.resolve "C".toList, .resolve "P".toList,
            .fork 0 [.resolve "X".toList, .resolve "Y".toList,
              .eprint (component_not_found "X".toList), .exit 1],
            .waitpid 0, .exit 0]
      ∧ exit_status (main (fun _ => true) 3 ["flow".toList, "f".toList, "C".toList]
          (some "concatenate=C\nparts=1\npart_0=P\npipe=P\nfrom=X\nto=Y\n".toList) {})
        = some 0 :=
  ⟨by rfl, by rfl⟩

/-- C10, amended: exit status on resolution failure.  A process of the tree in which a
"not found" resolution failure occurs exits with status 1: the program, when the failure
occurs in the orchestrating process itself, and a spawned executor process, when it occurs
there.  (The status of a child is not passed on to its parent.) -/
theorem resolution_failure_exit_status (os : OS) (depth : Nat) (name : List Char) :
    (∀ (argv : List (List Char)) (text : Option (List Char)) (p : Proc),
        (Act.eprint (component_not_found name) ∈ main os depth argv text p
          ∨ Act.eprint (part_not_found name) ∈ main os depth argv text p) →
        exit_status (main os depth argv text p) = some 1)
      ∧ (∀ (reg : List Component) (p : Proc) (comp : Component),
        (Act.eprint (component_not_found name)
            ∈ child_acts (execute_component os reg depth p comp)
          ∨ Act.eprint (part_not_found name)
            ∈ child_acts (execute_component os reg depth p comp)) →
        exit_status (child_acts (execute_component os reg depth p comp)) = some 1) := by
  have key : ∀ (reg : List Component) (p : Proc) (comp : Component) (msg : List Char),
      Act.eprint msg ∈ child_acts (execute_component os reg depth p comp) →
      Act.eprint msg ∈ (execute_component os reg depth p comp).acts := by
    intro reg p comp msg h
    unfold child_acts at h
    cases hc : (execute_component os reg depth p comp).cont with
    | none => simpa [hc] using h
    | some q => simpa [hc] using h
  constructor
  · intro argv text p h
    have hmsg : ∃ msg, Act.eprint msg ∈ main os depth argv text p := by
      rcases h with h | h
      · exact ⟨_, h⟩
      · exact ⟨_, h⟩
    obtain ⟨msg, hm⟩ := hmsg
    clear h
    rcases argv with _ | ⟨a, _ | ⟨b, _ | ⟨target, _ | ⟨d, rest⟩⟩⟩⟩
    · simp [main, exit_status]
    · simp [main, exit_status]
    · simp [main, exit_status]
    · cases text with
      | none => simp [main, exit_status]
      | some content =>
        cases hparse : parse_flow_text content with
        | none => simp [main, hparse] at hm
        | some st =>
          cases hfind : find_component st.components target with
          | none => simp [main, hparse, hfind, exit_status]
          | some target_comp =>
            have hfatal := execute_component_eprint os st.components depth p target_comp msg
            rcases hrun : execute_component os st.components depth p target_comp with
              ⟨acts, cont⟩
            rw [hrun] at hfatal
            simp only at hfatal
            cases cont with
            | some q =>
              simp only [main, hparse, hfind, hrun] at hm
              have hin : Act.eprint msg ∈ acts := by simpa using hm
              exact absurd (hfatal hin).2 (by simp)
            | none =>
              simp only [main, hparse, hfind, hrun] at hm ⊢
              have hin : Act.eprint msg ∈ acts := by simpa using hm
              rw [exit_status_append _ _ (List.ne_nil_of_mem hin)]
              exact (hfatal hin).1
    · simp [main, exit_status]
  · intro reg p comp h
    have hmsg : ∃ msg, Act.eprint msg ∈ (execute_component os reg depth p comp).acts := by
      rcases h with h | h
      · exact ⟨_, key _ _ _ _ h⟩
      · exact ⟨_, key _ _ _ _ h⟩
    obtain ⟨msg, hm⟩ := hmsg
    obtain ⟨h1, h2⟩ := execute_component_eprint os reg depth p comp msg hm
    unfold child_acts
    rw [h2]
    exact h1


/-- Witness of C10: the target itself is a Pipe with an undefined `from`. -/
theorem resolution_failure_exit_status_witness :
    exit_status (main (fun _ => true) 3 ["flow".toList, "f".toList, "P".toList]
      (some "pipe=P\nfrom=X\nto=Y\n".toList) {}) = some 1 :=
  (resolution_failure_exit_status (fun _ => true) 3 "X".toList).1
    ["flow".toList, "f".toList, "P".toList] (some "pipe=P\nfrom=X\nto=Y\n".toList) {}
    (Or.inl (show Act.eprint (component_not_found "X".toList)
        ∈ [Act.resolve "P".toList, .resolve "X".toList, .resolve "Y".toList,
            .eprint (component_not_found "X".toList), .exit 1] from by simp))

theorem serial_trace_tick (exec : Proc → Component → Run) (p : Proc)
    (parts : List (List Char × Component)) :
    ∀ k, serial_trace exec p.tick k parts = serial_trace exec p k parts := by
  induction parts with
  | nil => intro k; rfl
  | cons a rest ih =>
    intro k
    obtain ⟨name, part⟩ := a
    simp only [serial_trace, ih]
    rfl

theorem concatenate_loop_serial (os : OS) (reg : List Component)
    (exec : Proc → Component → Run) (concat : Concatenate)
    (parts : List (List Char × Component)) :
    ∀ (i : Nat) (p : Proc),
      (∀ (j : Nat) (name : List Char) (part : Component), parts[j]? = some (name, part) →
        concat.part_names[i + j]? = some name ∧ find_component reg name = some part) →
      (∀ j, j < parts.length → os ((p.calls + j) :: p.pid) = true) →
      concatenate_loop os reg exec concat parts.length i p
        = ⟨serial_trace exec p p.calls parts, some { p with calls := p.calls + parts.length }⟩ := by
  induction parts with
  | nil => intro i p _ _; rfl
  | cons a rest ih =>
    intro i p hres hfork
    obtain ⟨name, part⟩ := a
    obtain ⟨hn, hf⟩ := hres 0 name part (by simp)
    rw [Nat.add_zero] at hn
    have hk : sys_ok os p = true := by simpa [sys_ok] using hfork 0 (by simp)
    rw [List.length_cons, concatenate_loop_step _ _ _ _ _ _ _ _ _ hn hf hk]
    have hres1 : ∀ j nm c, rest[j]? = some (nm, c) →
        concat.part_names[i + 1 + j]? = some nm ∧ find_component reg nm = some c := by
      intro j nm c hj
      have := hres (j + 1) nm c (by simpa using hj)
      rwa [show i + (j + 1) = i + 1 + j by omega] at this
    have hfork1 : ∀ j, j < rest.length → os ((p.tick.calls + j) :: p.tick.pid) = true := by
      intro j hj
      have := hfork (j + 1) (by simpa using hj)
      rwa [show p.calls + (j + 1) = p.calls + 1 + j by omega] at this
    rw [ih (i + 1) p.tick hres1 hfork1, serial_trace_tick]
    simp only [serial_trace, Proc.tick, Run.mk.injEq, Option.some.injEq, Proc.mk.injEq,
      true_and, and_true]
    omega

theorem children_serial_trace (exec : Proc → Component → Run) (p : Proc)
    (parts : List (List Char × Component)) :
    ∀ k, (children (serial_trace exec p k parts)).length = parts.length := by
  induction parts with
  | nil => intro k; rfl
  | cons a rest ih =>
    intro k
    obtain ⟨name, part⟩ := a
    simp [serial_trace, children, ih]

theorem serial_output_serial_trace (out : List Act → List Char)
    (exec : Proc → Component → Run) (p : Proc) (parts : List (List Char × Component)) :
    ∀ k, serial_output out none (serial_trace exec p k parts)
      = some (serial_outputs out exec p k parts) := by
  induction parts with
  | nil => intro k; rfl
  | cons a rest ih =>
    intro k
    obtain ⟨name, part⟩ := a
    simp [serial_trace, serial_outputs, serial_output, ih]

/-- C7: Concatenate is strictly sequential.  Let the declared part count be `n` and let parts
`0 .. n-1` all resolve (`parts` lists their names and the components found), forks
succeeding.  Then what the parent does is exactly: resolve part 0, spawn a child that
executes it, wait for that child, resolve part 1, and so on in ascending order; it spawns
exactly `n` children; no child is started while another is alive, so that what the children
send to the shared standard output is their outputs in index order; and the parent returns. -/
theorem execute_concatenate_sequential (os : OS) (reg : List Component)
    (exec : Proc → Component → Run) (p : Proc) (concat : Concatenate)
    (parts : List (List Char × Component)) (out : List Act → List Char)
    (hcount : concat.parts = parts.length)
    (hres : ∀ (i : Nat) (name : List Char) (part : Component), parts[i]? = some (name, part) →
      concat.part_names[i]? = some name ∧ find_component reg name = some part)
    (hfork : ∀ i, i < parts.length → os ((p.calls + i) :: p.pid) = true) :
    (execute_concatenate os reg exec p concat).acts = serial_trace exec p p.calls parts
      ∧ (children (execute_concatenate os reg exec p concat).acts).length = parts.length
      ∧ serial_output out none (execute_concatenate os reg exec p concat).acts
          = some (serial_outputs out exec p p.calls parts)
      ∧ (execute_concatenate os reg exec p concat).cont
          = some { p with calls := p.calls + parts.length } := by
  have hloop := concatenate_loop_serial os reg exec concat parts 0 p
    (fun j name part h => by simpa using hres j name part h) hfork
  unfold execute_concatenate
  rw [hcount, Int.toNat_ofNat, hloop]
  exact ⟨rfl, children_serial_trace exec p parts p.calls,
    serial_output_serial_trace out exec p parts p.calls, rfl⟩


/-- Witness of C7: three Node parts printing `1`, `2`, `3` give `123`. -/
theorem execute_concatenate_sequential_witness :
    serial_output printf_output none
        (execute_concatenate (fun _ => true) sample_registry
          (execute_component (fun _ => true) sample_registry 1) {} sample_concat).acts
      = some "123".toList :=
  (execute_concatenate_sequential (fun _ => true) sample_registry
    (execute_component (fun _ => true) sample_registry 1) {} sample_concat
    [("one".toList, .node { name := "one".toList, command := "printf 1".toList }),
      ("two".toList, .node { name := "two".toList, command := "printf 2".toList }),
      ("three".toList, .node { name := "three".toList, command := "printf 3".toList })]
    printf_output rfl
    (fun i name part h => by
      rcases i with _ | _ | _ | i <;> simp at h <;> obtain ⟨rfl, rfl⟩ := h <;> decide)
    (fun _ _ => rfl)).2.2.1

theorem execute_pipe_wired (os : OS) (reg : List Component) (exec : Proc → Component → Run)
    (p : Proc) (pipe_comp : Pipe) (from_comp to_comp : Component) (r w : Nat)
    (hfrom : find_component reg pipe_comp.from_ = some from_comp)
    (hto : find_component reg pipe_comp.to_ = some to_comp)
    (hpipe : os (p.calls :: p.pid) = true)
    (hfork1 : os ((p.calls + 1) :: p.pid) = true)
    (hfork2 : os ((p.calls + 2) :: p.pid) = true)
    (hr : lowest_free p.fds = some r)
    (hw : lowest_free ((r, fresh_ofd p.fds) :: p.fds) = some w) :
    execute_pipe os reg exec p pipe_comp
      = ⟨[.resolve pipe_comp.from_, .resolve pipe_comp.to_, .pipe r w,
          .fork (p.calls + 1) ([Act.close r, .dup2 w STDOUT_FILENO, .close w]
            ++ child_acts (execute_endpoint os exec
              { p.child (p.calls + 1) with fds := source_fds (pipe_fds p.fds r w) r w }
              from_comp)),
          .fork (p.calls + 2) ([Act.close w, .dup2 r STDIN_FILENO, .close r]
            ++ child_acts (execute_endpoint os exec
              { p.child (p.calls + 2) with fds := sink_fds (pipe_fds p.fds r w) r w }
              to_comp)),
          .close r, .close w, .waitpid (p.calls + 1), .waitpid (p.calls + 2)],
        some { p.tick.tick.tick with
          fds := sys_close (sys_close (pipe_fds p.fds r w) r) w }⟩ := by
  unfold execute_pipe
  simp only [hfrom, hto, sys_pipe, sys_ok, hpipe, hr, hw, if_true, sys_fork, Proc.tick,
    hfork1, hfork2, Proc.child, List.cons_append, List.nil_append]


theorem pipe_fds_get (t : FdTable) (r w fd : Nat) :
    fd_get (pipe_fds t r w) fd
      = if w = fd then some (fresh_ofd t + 1) else if r = fd then some (fresh_ofd t)
        else fd_get t fd := by
  unfold pipe_fds
  rw [fd_get_cons, fd_get_cons]

theorem source_fds_get (t : FdTable) (r w fd : Nat) (hrw : r ≠ w) (hw : w ≠ STDOUT_FILENO) :
    fd_get (source_fds (pipe_fds t r w) r w) fd
      = if fd = w then none else if fd = STDOUT_FILENO then some (fresh_ofd t + 1)
        else if fd = r then none else fd_get t fd := by
  have hd : fd_get (sys_close (pipe_fds t r w) r) w = some (fresh_ofd t + 1) := by
    rw [fd_get_close, pipe_fds_get]
    simp [Ne.symm hrw]
  unfold source_fds
  rw [fd_get_close, fd_get_dup2 _ _ _ _ _ hd hw, fd_get_close, pipe_fds_get]
  by_cases h1 : fd = w
  · simp [h1]
  by_cases h2 : fd = STDOUT_FILENO
  · simp [h1, h2]
  by_cases h3 : fd = r
  · simp [h1, h2, h3]
  · simp [h1, h2, h3, Ne.symm h1, Ne.symm h3]

theorem sink_fds_get (t : FdTable) (r w fd : Nat) (hrw : r ≠ w) (hr : r ≠ STDIN_FILENO) :
    fd_get (sink_fds (pipe_fds t r w) r w) fd
      = if fd = r then none else if fd = STDIN_FILENO then some (fresh_ofd t)
        else if fd = w then none else fd_get t fd := by
  have hd : fd_get (sys_close (pipe_fds t r w) w) r = some (fresh_ofd t) := by
    rw [fd_get_close, pipe_fds_get]
    simp [hrw, Ne.symm hrw]
  unfold sink_fds
  rw [fd_get_close, fd_get_dup2 _ _ _ _ _ hd hr, fd_get_close, pipe_fds_get]
  by_cases h1 : fd = r
  · simp [h1]
  by_cases h2 : fd = STDIN_FILENO
  · simp [h1, h2]
  by_cases h3 : fd = w
  · simp [h1, h2, h3]
  · simp [h1, h2, h3, Ne.symm h1, Ne.symm h3]

theorem fd_get_not_fresh (t : FdTable) (fd : Nat) :
    fd_get t fd ≠ some (fresh_ofd t) ∧ fd_get t fd ≠ some (fresh_ofd t + 1) := by
  constructor
  · intro h
    have := fresh_ofd_spec t fd _ h
    omega
  · intro h
    have := fresh_ofd_spec t fd _ h
    omega


/-- C6 as stated fails when the executing process has descriptor 0 closed: `pipe` then
returns the read end as descriptor 0, in child 2 `dup2(0, 0)` changes nothing and
`close(pipefd[0])` closes descriptor 0, so the `to` command is launched without a standard
input, where the claim has the pipe's read end. -/
theorem execute_pipe_wiring_counterexample :
    (execute_pipe (fun _ => true) [sample_source, sample_sink] (fun _ _ => ⟨[], none⟩)
        { fds := [(1, 1), (2, 2)] } sample_pipe).acts
      = [.resolve "a".toList, .resolve "b".toList, .pipe 0 3,
          .fork 1 [.close 0, .dup2 3 1, .close 3,
            .execvp ["echo".toList, "hello".toList] [(1, 4), (2, 2)]],
          .fork 2 [.close 3, .dup2 0 0, .close 0,
            .execvp ["tr".toList, "a-z".toList, "A-Z".toList] [(1, 1), (2, 2)]],
          .close 0, .close 3, .waitpid 1, .waitpid 2] := by
  rfl

/-- C6, amended: pipe wiring.  Let `from` and `to` resolve, `pipe` and both `fork`s succeed,
and let descriptor 0 be open in the executing process.  Then the process creates
one pipe (descriptors `r`, `w`), spawns two children, closes `r` and `w` and waits for the
first child, then for the second.  The first child executes `from` with descriptor 1
referring to the write end, descriptors 0 and 2 as inherited, and no other descriptor
referring to either end of the pipe; the second child executes `to` with descriptor 0
referring to the read end, descriptors 1 and 2 as inherited, and no other descriptor
referring to either end; the parent is left with no descriptor referring to either end. -/
theorem execute_pipe_wiring (os : OS) (reg : List Component) (exec : Proc → Component → Run)
    (p : Proc) (pipe_comp : Pipe) (from_comp to_comp : Component)
    (hfrom : find_component reg pipe_comp.from_ = some from_comp)
    (hto : find_component reg pipe_comp.to_ = some to_comp)
    (hpipe : os (p.calls :: p.pid) = true)
    (hfork1 : os ((p.calls + 1) :: p.pid) = true)
    (hfork2 : os ((p.calls + 2) :: p.pid) = true)
    (hstdin : fd_get p.fds STDIN_FILENO ≠ none) :
    ∃ r w : Nat,
      execute_pipe os reg exec p pipe_comp
          = ⟨[.resolve pipe_comp.from_, .resolve pipe_comp.to_, .pipe r w,
              .fork (p.calls + 1) ([Act.close r, .dup2 w STDOUT_FILENO, .close w]
                ++ child_acts (execute_endpoint os exec
                  { p.child (p.calls + 1) with fds := source_fds (pipe_fds p.fds r w) r w }
                  from_comp)),
              .fork (p.calls + 2) ([Act.close w, .dup2 r STDIN_FILENO, .close r]
                ++ child_acts (execute_endpoint os exec
                  { p.child (p.calls + 2) with fds := sink_fds (pipe_fds p.fds r w) r w }
                  to_comp)),
              .close r, .close w, .waitpid (p.calls + 1), .waitpid (p.calls + 2)],
            some { p.tick.tick.tick with
              fds := sys_close (sys_close (pipe_fds p.fds r w) r) w }⟩
        ∧ (fd_get (pipe_fds p.fds r w) r = some (fresh_ofd p.fds)
          ∧ fd_get (pipe_fds p.fds r w) w = some (fresh_ofd p.fds + 1))
        ∧ (fd_get (source_fds (pipe_fds p.fds r w) r w) STDOUT_FILENO
              = some (fresh_ofd p.fds + 1)
          ∧ fd_get (source_fds (pipe_fds p.fds r w) r w) STDIN_FILENO
              = fd_get p.fds STDIN_FILENO
          ∧ fd_get (source_fds (pipe_fds p.fds r w) r w) STDERR_FILENO
              = fd_get p.fds STDERR_FILENO
          ∧ ∀ fd, fd ≠ STDOUT_FILENO →
              fd_get (source_fds (pipe_fds p.fds r w) r w) fd ≠ some (fresh_ofd p.fds)
              ∧ fd_get (source_fds (pipe_fds p.fds r w) r w) fd ≠ some (fresh_ofd p.fds + 1))
        ∧ (fd_get (sink_fds (pipe_fds p.fds r w) r w) STDIN_FILENO = some (fresh_ofd p.fds)
          ∧ fd_get (sink_fds (pipe_fds p.fds r w) r w) STDOUT_FILENO
              = fd_get p.fds STDOUT_FILENO
          ∧ fd_get (sink_fds (pipe_fds p.fds r w) r w) STDERR_FILENO
              = fd_get p.fds STDERR_FILENO
          ∧ ∀ fd, fd ≠ STDIN_FILENO →
              fd_get (sink_fds (pipe_fds p.fds r w) r w) fd ≠ some (fresh_ofd p.fds)
              ∧ fd_get (sink_fds (pipe_fds p.fds r w) r w) fd ≠ some (fresh_ofd p.fds + 1))
        ∧ (∀ fd,
            fd_get (sys_close (sys_close (pipe_fds p.fds r w) r) w) fd ≠ some (fresh_ofd p.fds)
            ∧ fd_get (sys_close (sys_close (pipe_fds p.fds r w) r) w) fd
                ≠ some (fresh_ofd p.fds + 1)) := by
  obtain ⟨r, hr⟩ := lowest_free_isSome p.fds
  obtain ⟨w, hw⟩ := lowest_free_isSome ((r, fresh_ofd p.fds) :: p.fds)
  have hrfree := lowest_free_spec _ _ hr
  have hwfree := lowest_free_spec _ _ hw
  rw [fd_get_cons] at hwfree
  have hrw : r ≠ w := fun e => by simp [e] at hwfree
  have hwfree' : fd_get p.fds w = none := by simpa [hrw] using hwfree
  have hr0 : r ≠ STDIN_FILENO := fun e => hstdin (e ▸ hrfree)
  have hw0 : w ≠ STDIN_FILENO := fun e => hstdin (e ▸ hwfree')
  have hw1 : w ≠ STDOUT_FILENO := by
    intro e
    have hleast := lowest_free_least _ _ hr
    have hfree1 : fd_get p.fds 1 = none := by
      show fd_get p.fds STDOUT_FILENO = none
      rw [← e]
      exact hwfree'
    have h1 : ¬ (1 < r) := fun hlt => hleast 1 hlt hfree1
    have h0 : r ≠ 0 := hr0
    apply hrw
    rw [e]
    show r = 1
    omega
  have hnf := fd_get_not_fresh p.fds
  refine ⟨r, w,
    execute_pipe_wired os reg exec p pipe_comp from_comp to_comp r w hfrom hto hpipe hfork1
      hfork2 hr hw, ?_, ?_, ?_, ?_⟩
  · rw [pipe_fds_get, pipe_fds_get]
    simp [hrw, Ne.symm hrw]
  · simp only [source_fds_get _ _ _ _ hrw hw1]
    refine ⟨by simp [Ne.symm hw1], ?_, ?_, ?_⟩
    · have : STDIN_FILENO ≠ STDOUT_FILENO := by decide
      simp [Ne.symm hw0, Ne.symm hr0, this]
    · split_ifs with a b c
      · rw [a]; exact hwfree'.symm
      · exact absurd b (by decide)
      · rw [c]; exact hrfree.symm
      · rfl
    · intro fd hfd
      split_ifs with a b
      · simp
      · simp
      · exact hnf fd
  · simp only [sink_fds_get _ _ _ _ hrw hr0]
    refine ⟨by simp [Ne.symm hr0], ?_, ?_, ?_⟩
    · split_ifs with a b c
      · rw [a]; exact hrfree.symm
      · exact absurd b (by decide)
      · exact absurd c.symm hw1
      · rfl
    · split_ifs with a b c
      · rw [a]; exact hrfree.symm
      · exact absurd b (by decide)
      · rw [c]; exact hwfree'.symm
      · rfl
    · intro fd hfd
      split_ifs with a b
      · simp
      · simp
      · exact hnf fd
  · intro fd
    simp only [fd_get_close, pipe_fds_get]
    by_cases e1 : fd = w
    · simp [e1]
    by_cases e2 : fd = r
    · simp [e1, e2]
    · simp only [e1, e2, Ne.symm e1, Ne.symm e2, if_false]
      exact hnf fd

/-- Witness of C6: the sample pipe `echo hello | tr a-z A-Z` run by a process with descriptors
0, 1, 2 open on the open file descriptions 0, 1, 2.  The pipe's read end is 3,
its write end 4; `echo` gets descriptor 1 on the write end, `tr` descriptor 0 on the read
end. -/
theorem execute_pipe_wiring_witness :
    ∃ r w : Nat,
      fd_get (source_fds (pipe_fds [(0, 0), (1, 1), (2, 2)] r w) r w) STDOUT_FILENO = some 4
        ∧ fd_get (sink_fds (pipe_fds [(0, 0), (1, 1), (2, 2)] r w) r w) STDIN_FILENO = some 3 :=
  match execute_pipe_wiring (fun _ => true) [sample_source, sample_sink]
      (fun _ _ => ⟨[], none⟩) {} sample_pipe sample_source sample_sink rfl rfl rfl rfl rfl
      (by decide) with
  | ⟨r, w, _, _, hsource, hsink, _⟩ => ⟨r, w, hsource.1, hsink.1⟩

/-! ## Tokenizer: quotes, limit, ordinary characters -/

theorem parse_args_nil (slots : Nat) : parse_args slots [] = [] := by
  cases slots <;> simp [parse_args]

theorem parse_args_end (slots : Nat) (ptr : List Char) (h : ptr.dropWhile isBlank = []) :
    parse_args slots ptr = [] := by
  cases slots with
  | zero => rfl
  | succ s => rw [parse_args]; simp only [h]

theorem parse_args_step (slots : Nat) (ptr : List Char) (c : Char) (rest : List Char)
    (h : ptr.dropWhile isBlank = c :: rest) :
    parse_args (slots + 1) ptr = token_of c rest :: parse_args slots (after_token c rest) := by
  rw [parse_args]
  simp only [h, token_of, after_token]
  split_ifs <;> rfl

theorem token_starts_end (slots : Nat) (ptr : List Char) (h : ptr.dropWhile isBlank = []) :
    token_starts slots ptr = [] := by
  cases slots with
  | zero => rfl
  | succ s => rw [token_starts]; simp only [h]

theorem token_starts_step (slots : Nat) (ptr : List Char) (c : Char) (rest : List Char)
    (h : ptr.dropWhile isBlank = c :: rest) :
    token_starts (slots + 1) ptr = (c :: rest) :: token_starts slots (after_token c rest) := by
  rw [token_starts]
  simp only [h]

theorem after_token_suffix (c : Char) (rest : List Char) :
    List.IsSuffix (after_token c rest) (c :: rest) := by
  unfold after_token
  split_ifs
  · exact ((List.drop_suffix 1 _).trans (List.dropWhile_suffix _)).trans (List.suffix_cons c rest)
  · exact (List.drop_suffix 1 _).trans (List.dropWhile_suffix _)

theorem token_starts_suffix (slots : Nat) : ∀ (ptr s : List Char),
    s ∈ token_starts slots ptr → List.IsSuffix s ptr := by
  induction slots with
  | zero => intro ptr s h; simp [token_starts] at h
  | succ k ih =>
    intro ptr s h
    cases hd : ptr.dropWhile isBlank with
    | nil => rw [token_starts_end _ _ hd] at h; simp at h
    | cons c rest =>
      rw [token_starts_step _ _ _ _ hd] at h
      have hsuf : List.IsSuffix (c :: rest) ptr := hd ▸ List.dropWhile_suffix _
      rcases List.mem_cons.mp h with h | h
      · exact h ▸ hsuf
      · exact ((ih _ s h).trans (after_token_suffix c rest)).trans hsuf

theorem unterminated_quote_args (q : Char) (tail : List Char) (hq : isQuote q = true)
    (hno : q ∉ tail) (slots : Nat) : ∀ (ptr : List Char),
    (q :: tail) ∈ token_starts slots ptr → ∃ before, parse_args slots ptr = before ++ [tail] := by
  induction slots with
  | zero => intro ptr h; simp [token_starts] at h
  | succ k ih =>
    intro ptr h
    cases hd : ptr.dropWhile isBlank with
    | nil => rw [token_starts_end _ _ hd] at h; simp at h
    | cons c rest =>
      rw [token_starts_step _ _ _ _ hd] at h
      rw [parse_args_step _ _ _ _ hd]
      rcases List.mem_cons.mp h with h | h
      · obtain ⟨rfl, rfl⟩ := List.cons.inj h
        have hall : ∀ a ∈ tail, (a != q) = true := fun a ha =>
          bne_iff_ne.mpr (fun e => hno (e ▸ ha))
        have h1 : token_of q tail = tail := by
          simp only [token_of, hq, if_true]
          exact List.takeWhile_eq_self_iff.mpr hall
        have h2 : after_token q tail = [] := by
          simp only [after_token, hq, if_true]
          rw [List.dropWhile_eq_nil_iff.mpr hall]
          rfl
        exact ⟨[], by rw [h1, h2, parse_args_nil]; rfl⟩
      · obtain ⟨before, hb⟩ := ih _ h
        exact ⟨token_of c rest :: before, by rw [hb]; rfl⟩

/-- C13: unterminated quote.  When a token of a command string begins with a quote character
`q` (the text from there on is `q :: tail`, one of the token starts of the loop, so fewer than
63 tokens precede it) and `q` does not occur in `tail`, that token is the last one returned
and it is all of `tail`, the rest of the string after the opening quote, blanks included. -/
theorem unterminated_quote (command : List Char) (q : Char) (tail : List Char)
    (hstart : (q :: tail) ∈ token_starts (MAX_ARGS - 1) (cstr command))
    (hq : isQuote q = true) (hno : q ∉ tail) :
    List.IsSuffix (q :: tail) (cstr command)
      ∧ ∃ before, parse_command command = before ++ [tail] :=
  ⟨token_starts_suffix _ _ _ hstart, unterminated_quote_args q tail hq hno _ _ hstart⟩

/-- Witness of C13: `echo "a b` gives the tokens `echo` and `a b`. -/
theorem unterminated_quote_witness :
    List.IsSuffix ('"' :: "a b".toList) (cstr "echo \"a b".toList)
      ∧ ∃ before, parse_command "echo \"a b".toList = before ++ ["a b".toList] :=
  unterminated_quote "echo \"a b".toList '"' "a b".toList (by decide) (by decide) (by decide)

theorem parse_args_take (m : Nat) : ∀ (n : Nat) (ptr : List Char), m ≤ n →
    parse_args m ptr = (parse_args n ptr).take m := by
  induction m with
  | zero => intro n ptr _; simp [parse_args]
  | succ k ih =>
    intro n ptr hle
    cases n with
    | zero => omega
    | succ n =>
      cases hd : ptr.dropWhile isBlank with
      | nil => rw [parse_args_end _ _ hd, parse_args_end _ _ hd]; rfl
      | cons c rest =>
        rw [parse_args_step _ _ _ _ hd, parse_args_step _ _ _ _ hd, List.take_succ_cons,
          ih n _ (by omega)]

theorem parse_args_length_le_slots (m : Nat) : ∀ (ptr : List Char),
    (parse_args m ptr).length ≤ m := by
  induction m with
  | zero => intro ptr; simp [parse_args]
  | succ k ih =>
    intro ptr
    cases hd : ptr.dropWhile isBlank with
    | nil => rw [parse_args_end _ _ hd]; simp
    | cons c rest =>
      rw [parse_args_step _ _ _ _ hd, List.length_cons]
      exact Nat.succ_le_succ (ih _)

theorem after_token_length (c : Char) (rest : List Char) :
    (after_token c rest).length ≤ rest.length := by
  unfold after_token
  split_ifs with hq
  · exact Nat.le_trans (List.length_drop 1 _ ▸ Nat.sub_le _ _)
      (List.dropWhile_suffix _).length_le
  · have h := (List.dropWhile_suffix (fun d => !isBlank d) (l := c :: rest)).length_le
    simp only [List.length_drop, List.length_cons] at h ⊢
    omega

theorem parse_args_length_le (m : Nat) : ∀ (ptr : List Char),
    (parse_args m ptr).length ≤ ptr.length := by
  induction m with
  | zero => intro ptr; simp [parse_args]
  | succ k ih =>
    intro ptr
    cases hd : ptr.dropWhile isBlank with
    | nil => rw [parse_args_end _ _ hd]; simp
    | cons c rest =>
      rw [parse_args_step _ _ _ _ hd, List.length_cons]
      have h1 := ih (after_token c rest)
      have h2 := after_token_length c rest
      have h3 : (c :: rest).length ≤ ptr.length := by
        rw [← hd]; exact (List.dropWhile_suffix _).length_le
      simp only [List.length_cons] at h3
      omega

theorem parse_args_unlimited (s : List Char) (n : Nat) (hn : s.length ≤ n) :
    parse_args n s = tokenize_unlimited s := by
  unfold tokenize_unlimited
  have h := parse_args_take s.length n s hn
  rw [h, List.take_of_length_le]
  exact parse_args_length_le n s

/-- C14: token limit.  `parse_command` returns at most 63 tokens, and they are exactly the
first 63 tokens of the tokenization without a limit, which is what the same loop gives with
any number `n` of slots that is at least the length of the string; nothing else happens when
tokens are dropped. -/
theorem token_limit (command : List Char) :
    (parse_command command).length ≤ MAX_ARGS - 1
      ∧ parse_command command = (tokenize_unlimited (cstr command)).take (MAX_ARGS - 1)
      ∧ ∀ n, (cstr command).length ≤ n →
          parse_args n (cstr command) = tokenize_unlimited (cstr command) := by
  refine ⟨parse_args_length_le_slots _ _, ?_, fun n hn => parse_args_unlimited _ n hn⟩
  unfold parse_command
  by_cases h : MAX_ARGS - 1 ≤ (cstr command).length
  · exact parse_args_take _ _ _ h
  · rw [parse_args_unlimited _ _ (by omega), List.take_of_length_le]
    exact Nat.le_trans (parse_args_length_le _ _) (by omega)


set_option maxRecDepth 100000 in
/-- Witness of C14: of 64 words `x` the first 63 are returned. -/
theorem token_limit_witness :
    (tokenize_unlimited (cstr (words_x 64))).length = 64
      ∧ (parse_command (words_x 64)).length = 63
      ∧ parse_command (words_x 64)
          = (tokenize_unlimited (cstr (words_x 64))).take (MAX_ARGS - 1)
      ∧ parse_args 200 (cstr (words_x 64)) = tokenize_unlimited (cstr (words_x 64)) :=
  ⟨by decide, by decide, (token_limit _).2.1, (token_limit _).2.2 200 (by decide)⟩

theorem map_special {f : Char → Char}
    (hfix : ∀ c, (isBlank c || isQuote c) = true → f c = c)
    (hout : ∀ c, (isBlank c || isQuote c) = false → (isBlank (f c) || isQuote (f c)) = false)
    (c : Char) : isBlank (f c) = isBlank c ∧ isQuote (f c) = isQuote c := by
  cases h : (isBlank c || isQuote c) with
  | true => rw [hfix c h]; exact ⟨rfl, rfl⟩
  | false =>
    have h1 := hout c h
    simp only [Bool.or_eq_false_iff] at h h1
    exact ⟨h1.1.trans h.1.symm, h1.2.trans h.2.symm⟩

theorem map_quote_ne {f : Char → Char}
    (hfix : ∀ c, (isBlank c || isQuote c) = true → f c = c)
    (hout : ∀ c, (isBlank c || isQuote c) = false → (isBlank (f c) || isQuote (f c)) = false)
    (c : Char) (hc : isQuote c = true) (d : Char) : (f d != f c) = (d != c) := by
  have hfc : f c = c := hfix c (by simp [hc])
  rw [hfc]
  by_cases hd : d = c
  · subst hd; rw [hfc]
  · have hne : f d ≠ c := by
      intro e
      have hq := (map_special hfix hout d).2
      rw [e, hc] at hq
      have := hfix d (by simp [← hq])
      exact hd (this ▸ e)
    rw [bne_iff_ne.mpr hne, bne_iff_ne.mpr hd]

theorem token_map {f : Char → Char}
    (hfix : ∀ c, (isBlank c || isQuote c) = true → f c = c)
    (hout : ∀ c, (isBlank c || isQuote c) = false → (isBlank (f c) || isQuote (f c)) = false)
    (c : Char) (rest : List Char) :
    token_of (f c) (rest.map f) = (token_of c rest).map f
      ∧ after_token (f c) (rest.map f) = (after_token c rest).map f := by
  have hb : (fun d => !isBlank d) ∘ f = fun d => !isBlank d := by
    funext d
    simp [(map_special hfix hout d).1]
  unfold token_of after_token
  rw [(map_special hfix hout c).2]
  cases hq : isQuote c with
  | true =>
    have hn : (fun d => d != f c) ∘ f = fun d => d != c := by
      funext d
      exact map_quote_ne hfix hout c hq d
    simp only [if_true, List.takeWhile_map, List.dropWhile_map, hn, List.map_drop]
    exact ⟨trivial, trivial⟩
  | false =>
    simp only [Bool.false_eq_true, if_false, ← List.map_cons, List.takeWhile_map,
      List.dropWhile_map, hb, List.map_drop]
    exact ⟨trivial, trivial⟩


theorem parse_args_map {f : Char → Char}
    (hfix : ∀ c, (isBlank c || isQuote c) = true → f c = c)
    (hout : ∀ c, (isBlank c || isQuote c) = false → (isBlank (f c) || isQuote (f c)) = false)
    (slots : Nat) : ∀ ptr : List Char,
    parse_args slots (ptr.map f) = (parse_args slots ptr).map (List.map f) := by
  have hb : isBlank ∘ f = isBlank := by
    funext d
    exact (map_special hfix hout d).1
  induction slots with
  | zero => intro ptr; rfl
  | succ k ih =>
    intro ptr
    have hdrop : (ptr.map f).dropWhile isBlank = (ptr.dropWhile isBlank).map f := by
      rw [List.dropWhile_map, hb]
    cases hd : ptr.dropWhile isBlank with
    | nil =>
      rw [hd] at hdrop
      rw [parse_args_end _ _ hdrop, parse_args_end _ _ hd]
      rfl
    | cons c rest =>
      rw [hd, List.map_cons] at hdrop
      obtain ⟨h1, h2⟩ := token_map hfix hout c rest
      rw [parse_args_step _ _ _ _ hdrop, parse_args_step _ _ _ _ hd, h1, h2, ih]
      rfl

/-- C15: no escape processing.  Let `f` map characters to characters, fixing space, tab and
the two quotes and mapping every other character outside these four (and, both being C
strings, mapping no character to the terminator NUL).  Then tokenizing a command string with
`f` applied to each character gives the tokens of the string, `f` applied to each of their
characters: no other character, the backslash included, means anything to the tokenizer. -/
theorem no_escape_processing (f : Char → Char) (command : List Char)
    (hfix : ∀ c, (isBlank c || isQuote c) = true → f c = c)
    (hout : ∀ c, (isBlank c || isQuote c) = false → (isBlank (f c) || isQuote (f c)) = false)
    (hnul : ∀ c, f c = NUL ↔ c = NUL) :
    parse_command (command.map f) = (parse_command command).map (List.map f) := by
  have hc : (fun c => c != NUL) ∘ f = fun c => c != NUL := by
    funext c
    by_cases h : c = NUL
    · simp [h, (hnul NUL).mpr rfl]
    · have : f c ≠ NUL := fun e => h ((hnul c).mp e)
      show (f c != NUL) = (c != NUL)
      rw [bne_iff_ne.mpr this, bne_iff_ne.mpr h]
  unfold parse_command cstr
  rw [List.takeWhile_map, hc]
  exact parse_args_map hfix hout _ _

/-- Witness of C15: with the backslash turned into `z`, `a\ b` and `"a\"b"` are tokenized as
`az b` and `"az"b"` are; a backslash neither joins words nor protects a quote. -/
theorem no_escape_processing_witness :
    (parse_command ("a\\ b".toList.map (fun c => if c = '\\' then 'z' else c))
        = (parse_command "a\\ b".toList).map (List.map (fun c => if c = '\\' then 'z' else c))
      ∧ parse_command "a\\ b".toList = ["a\\".toList, "b".toList])
      ∧ parse_command "\"a\\\"b\"".toList = ["a\\".toList, "b\"".toList] :=
  ⟨⟨no_escape_processing (fun c => if c = '\\' then 'z' else c) "a\\ b".toList
      (fun c h => by
        have : c ≠ '\\' := fun e => by subst e; revert h; decide
        simp [this])
      (fun c h => by
        by_cases e : c = '\\'
        · subst e; decide
        · simpa [e] using h)
      (fun c => by
        by_cases e : c = '\\'
        · subst e; decide
        · simp [e]),
    by decide⟩, by decide⟩

theorem closing_quote_args (q c : Char) (w rest : List Char) (hq : isQuote q = true)
    (hw : q ∉ w) (hc : isBlank c = false) (slots : Nat) : ∀ (ptr : List Char) (i : Nat),
    (token_starts slots ptr)[i]? = some (q :: (w ++ q :: c :: rest)) → i + 1 < slots →
    (parse_args slots ptr)[i]? = some w
      ∧ (token_starts slots ptr)[i + 1]? = some (c :: rest)
      ∧ (parse_args slots ptr)[i + 1]? = some (token_of c rest) := by
  induction slots with
  | zero => intro ptr i _ hi; omega
  | succ k ih =>
    intro ptr i h hi
    cases hd : ptr.dropWhile isBlank with
    | nil => rw [token_starts_end _ _ hd] at h; simp at h
    | cons d r =>
      rw [token_starts_step _ _ _ _ hd] at h ⊢
      rw [parse_args_step _ _ _ _ hd]
      cases i with
      | zero =>
        simp only [List.getElem?_cons_zero, Option.some.injEq, List.cons.injEq] at h
        obtain ⟨rfl, rfl⟩ := h
        have hall : ∀ a ∈ w, (a != d) = true := fun a ha =>
          bne_iff_ne.mpr (fun e => hw (e ▸ ha))
        have hstop := takeWhile_stop (p := fun a => a != d) w (d :: c :: rest) hall (by simp)
        have h1 : token_of d (w ++ d :: c :: rest) = w := by
          simp only [token_of, hq, if_true]
          exact hstop.1
        have h2 : after_token d (w ++ d :: c :: rest) = c :: rest := by
          simp only [after_token, hq, if_true]
          rw [hstop.2]
          rfl
        have hdc : (c :: rest).dropWhile isBlank = c :: rest := by
          simp [List.dropWhile_cons, hc]
        obtain ⟨k', rfl⟩ : ∃ k', k = k' + 1 := ⟨k - 1, by omega⟩
        rw [h1, h2, token_starts_step _ _ _ _ hdc, parse_args_step _ _ _ _ hdc]
        simp
      | succ j =>
        simp only [List.getElem?_cons_succ] at h ⊢
        exact ih _ j h (by omega)

/-- C20 as stated fails at the token limit: after 62 words the quoted segment `"a"` is the
63rd token start; `a` is returned as the 63rd token, the loop ends there and no token starts
at the `b` that follows. -/
theorem closing_quote_counterexample :
    (token_starts (MAX_ARGS - 1) (cstr (words_x 62 ++ "\"a\"b".toList)))[62]?
        = some "\"a\"b".toList
      ∧ parse_command (words_x 62 ++ "\"a\"b".toList)
        = List.replicate 62 "x".toList ++ ["a".toList] := by
  constructor <;> decide

/-- C20, amended: a closing quote always ends the token.  When the `i`-th token of a command
string begins with a quote `q`, continues with `w` not containing `q` and the closing `q`,
and is directly followed by a character `c` that is no space or tab, and a slot is left for
one more token (`i + 1 < 63`), then `parse_command` returns `w` as the `i`-th token and the
next token starts at `c`: `"a"b` gives the two tokens `a` and `b`. -/
theorem closing_quote_ends_token (command : List Char) (q c : Char) (w rest : List Char)
    (i : Nat)
    (hstart : (token_starts (MAX_ARGS - 1) (cstr command))[i]?
      = some (q :: (w ++ q :: c :: rest)))
    (hq : isQuote q = true) (hw : q ∉ w) (hc : isBlank c = false)
    (hi : i + 1 < MAX_ARGS - 1) :
    (parse_command command)[i]? = some w
      ∧ (token_starts (MAX_ARGS - 1) (cstr command))[i + 1]? = some (c :: rest)
      ∧ (parse_command command)[i + 1]? = some (token_of c rest) :=
  closing_quote_args q c w rest hq hw hc _ _ i hstart hi

/-- Witness of C20: `"a"b` gives the tokens `a` and `b`. -/
theorem closing_quote_ends_token_witness :
    ((parse_command "\"a\"b".toList)[0]? = some "a".toList
      ∧ (token_starts (MAX_ARGS - 1) (cstr "\"a\"b".toList))[0 + 1]? = some "b".toList
      ∧ (parse_command "\"a\"b".toList)[0 + 1]? = some (token_of 'b' []))
      ∧ parse_command "\"a\"b".toList = ["a".toList, "b".toList] :=
  ⟨closing_quote_ends_token "\"a\"b".toList '"' 'b' "a".toList [] 0 (by decide) (by decide)
    (by decide) (by decide) (by decide), by decide⟩

/-! ## Parser: parts, names, references -/

theorem isdigit_not_special (d : Char) (h : isdigit d = true) :
    isspace d = false ∧ d ≠ '-' ∧ d ≠ '+' ∧ d ≠ '=' ∧ d ≠ '\n' ∧ d ≠ NUL := by
  simp only [isdigit, Bool.and_eq_true, decide_eq_true_eq] at h
  have hne : ∀ c : Char, c.toNat < 48 ∨ 57 < c.toNat → d ≠ c := by
    intro c hc e
    subst e
    omega
  refine ⟨?_, hne _ (by decide), hne _ (by decide), hne _ (by decide), hne _ (by decide),
    hne _ (by decide)⟩
  simp only [isspace, Bool.or_eq_false_iff, Bool.and_eq_false_iff, beq_eq_false_iff_ne,
    decide_eq_false_iff_not]
  exact ⟨hne _ (by decide), Or.inr (by omega)⟩

theorem atoi_digits (ds : List Char) (hne : ds ≠ []) (hds : ∀ d ∈ ds, isdigit d = true)
    (hk : digits_value ds < 2 ^ 31) : atoi ds = digits_value ds := by
  obtain ⟨d, t, rfl⟩ := List.exists_cons_of_ne_nil hne
  have hd := isdigit_not_special d (hds d (by simp))
  have h1 : (d :: t).dropWhile isspace = d :: t := by
    simp [List.dropWhile_cons, hd.1]
  have h2 : (d :: t).takeWhile isdigit = d :: t := List.takeWhile_eq_self_iff.mpr hds
  have e1 : (some d == some '-') = false := by simp [hd.2.1]
  have e2 : (some d == some '+') = false := by simp [hd.2.2.1]
  have hk' : (digits_value (d :: t) : Int) < 2 ^ 31 := by exact_mod_cast hk
  have hk0 : (0 : Int) ≤ digits_value (d :: t) := Int.ofNat_nonneg _
  have hmin : min (digits_value (d :: t) : Int) (2 ^ 63 - 1) = digits_value (d :: t) :=
    min_eq_left (by omega)
  have hmax : max (-(2 ^ 63) : Int) (digits_value (d :: t)) = digits_value (d :: t) :=
    max_eq_right (by omega)
  unfold atoi strtol
  simp only [h1, List.head?_cons, e1, e2, Bool.or_self, Bool.false_eq_true, if_false, h2]
  rw [hmin, hmax]
  omega


theorem process_line_part (st : ParseState) (c : Concatenate) (ds v : List Char)
    (hcur : st.cursor = some (.concat c)) (hne : ds ≠ [])
    (hds : ∀ d ∈ ds, isdigit d = true) (hv : '\n' ∉ v ∧ NUL ∉ v)
    (hk : digits_value ds < 2 ^ 31) :
    process_line st ("part_".toList ++ ds ++ '=' :: v)
      = some (if digits_value ds < MAX_PARTS then
          st.store (.concat { c with
            part_names := c.part_names.set (digits_value ds) (strncpy v (MAX_NAME - 1)) })
        else st) := by
  have hsp : ∀ d ∈ ds, d ≠ '=' ∧ d ≠ '\n' ∧ d ≠ NUL := fun d hd =>
    (isdigit_not_special d (hds d hd)).2.2.2
  have hkeq : '=' ∉ "part_".toList ++ ds := by
    intro h
    rcases List.mem_append.mp h with h | h
    · revert h; decide
    · exact (hsp _ h).1 rfl
  have hline : ∀ x : Char, x ∉ "part_=".toList → (∀ d ∈ ds, d ≠ x) → x ∉ v →
      x ∉ "part_".toList ++ ds ++ '=' :: v := by
    intro x hx hd hxv h
    simp only [List.mem_append, List.mem_cons] at h
    rcases h with (h | h) | h | h
    · exact hx (List.mem_of_mem_take (n := 5) h)
    · exact hd x h rfl
    · exact hx (by rw [h]; decide)
    · exact hxv h
  rw [process_line_key_value st _ v hkeq
    ⟨hline _ (by decide) (fun d hd => (hsp d hd).2.1) hv.1,
      hline _ (by decide) (fun d hd => (hsp d hd).2.2) hv.2⟩]
  have hatoi := atoi_digits ds hne hds hk
  have n1 : "part_".toList ++ ds ≠ "node".toList := by intro e; simp at e
  have n2 : "part_".toList ++ ds ≠ "command".toList := by intro e; simp at e
  have n3 : "part_".toList ++ ds ≠ "pipe".toList := by intro e; simp at e
  have n4 : "part_".toList ++ ds ≠ "from".toList := by intro e; simp at e
  have n5 : "part_".toList ++ ds ≠ "to".toList := by intro e; simp at e
  have n6 : "part_".toList ++ ds ≠ "concatenate".toList := by intro e; simp at e
  have n7 : "part_".toList ++ ds ≠ "parts".toList := by intro e; simp at e
  have t5 : ("part_".toList ++ ds).take 5 = "part_".toList := by simp
  have d5 : ("part_".toList ++ ds).drop 5 = ds := by simp
  unfold apply_key
  simp only [n1, n2, n3, n4, n5, n6, n7, if_false, t5, if_true, hcur, d5, hatoi]
  by_cases hlt : digits_value ds < MAX_PARTS
  · have : (0 : Int) ≤ digits_value ds ∧ (digits_value ds : Int) < MAX_PARTS :=
      ⟨Int.ofNat_nonneg _, by exact_mod_cast hlt⟩
    simp only [this, and_self, if_true, hlt, Int.toNat_ofNat]
  · have : ¬ ((0 : Int) ≤ digits_value ds ∧ (digits_value ds : Int) < MAX_PARTS) := by
      intro h
      exact hlt (by exact_mod_cast h.2)
    simp only [this, if_false, hlt]


/-- C12 as stated fails: the line `node=` stores a Node whose name is empty. -/
theorem name_invariant_counterexample :
    parse_flow_text "node=\n".toList
      = some { components := [.node { name := [], command := [] }], current := some 0 } := by
  decide

/-- C12, amended: names are what the lines give.  For a text without NUL whose lines are at
most 1023 characters long and which has at most 100 component-starting lines, parsing succeeds
and every stored component has a non-empty name exactly when every component-starting line
has a value that, cut to 255 characters, is non-empty. -/
theorem name_invariant (lines : List (List Char)) (last : List Char)
    (hfit : ∀ l ∈ lines ++ [last], fits_buffer l)
    (hcount : ((lines ++ [last]).filterMap header_of_line).length ≤ MAX_COMPONENTS) :
    ∃ st, parse_flow_text (unlines lines ++ last) = some st
      ∧ ((∀ c ∈ st.components, c.name ≠ [])
        ↔ ∀ l ∈ lines ++ [last], ∀ h, header_of_line l = some h → h.2 ≠ []) := by
  have h1 : ∀ l ∈ lines, fits_buffer l := fun l hl => hfit l (by simp [hl])
  have h2 : fits_buffer last := hfit last (by simp)
  unfold parse_flow_text
  rw [parse_lines_unlines lines {} last h1 h2]
  obtain ⟨st, hst, hh⟩ := process_lines_headers (lines ++ [last]) {} hfit (by simpa using hcount)
  refine ⟨st, hst, ?_⟩
  have hh' : st.components.map Component.header = (lines ++ [last]).filterMap header_of_line := by
    simpa using hh
  constructor
  · intro hall l hl h hhl
    have hmem : h ∈ st.components.map Component.header := by
      rw [hh']
      exact List.mem_filterMap.mpr ⟨l, hl, hhl⟩
    obtain ⟨c, hc, rfl⟩ := List.mem_map.mp hmem
    exact hall c hc
  · intro hall c hc
    have hmem : c.header ∈ (lines ++ [last]).filterMap header_of_line := by
      rw [← hh']
      exact List.mem_map.mpr ⟨c, hc, rfl⟩
    obtain ⟨l, hl, hhl⟩ := List.mem_filterMap.mp hmem
    exact hall l hl c.header hhl

/-- Witness of C12: a Node and a Pipe with names. -/
theorem name_invariant_witness :
    ∃ st, parse_flow_text "node=A\npipe=B\n".toList = some st
      ∧ ((∀ c ∈ st.components, c.name ≠ [])
        ↔ ∀ l ∈ ["node=A".toList, "pipe=B".toList] ++ [[]], ∀ h,
            header_of_line l = some h → h.2 ≠ []) :=
  name_invariant ["node=A".toList, "pipe=B".toList] [] (by decide) (by decide)

theorem clean_line (k v : List Char) (hk : '\n' ∉ k ∧ NUL ∉ k) (hv : '\n' ∉ v ∧ NUL ∉ v) :
    '\n' ∉ k ++ '=' :: v ∧ NUL ∉ k ++ '=' :: v := by
  constructor
  · intro h
    rcases List.mem_append.mp h with h | h
    · exact hk.1 h
    · rcases List.mem_cons.mp h with h | h
      · revert h; decide
      · exact hv.1 h
  · intro h
    rcases List.mem_append.mp h with h | h
    · exact hk.2 h
    · rcases List.mem_cons.mp h with h | h
      · revert h; decide
      · exact hv.2 h

theorem process_line_from_to (st : ParseState) (p : Pipe) (v : List Char)
    (hcur : st.cursor = some (.pipe p)) (hv : '\n' ∉ v ∧ NUL ∉ v) :
    process_line st ("from".toList ++ '=' :: v)
        = some (st.store (.pipe { p with from_ := v.take 255 }))
      ∧ process_line st ("to".toList ++ '=' :: v)
        = some (st.store (.pipe { p with to_ := v.take 255 })) := by
  constructor
  · rw [process_line_key_value st _ v (by decide) (clean_line _ v (by decide) hv)]
    unfold apply_key
    rw [if_neg (by decide), if_neg (by decide), if_neg (by decide), if_pos rfl]
    simp only [hcur]
    rfl
  · rw [process_line_key_value st _ v (by decide) (clean_line _ v (by decide) hv)]
    unfold apply_key
    rw [if_neg (by decide), if_neg (by decide), if_neg (by decide), if_neg (by decide),
      if_pos rfl]
    simp only [hcur]
    rfl


theorem concatenate_loop_prefix (os : OS) (reg : List Component)
    (exec : Proc → Component → Run) (concat : Concatenate)
    (parts : List (List Char × Component)) :
    ∀ (i todo : Nat) (p : Proc),
      (∀ (j : Nat) (name : List Char) (part : Component), parts[j]? = some (name, part) →
        concat.part_names[i + j]? = some name ∧ find_component reg name = some part) →
      (∀ j, j < parts.length → os ((p.calls + j) :: p.pid) = true) →
      concatenate_loop os reg exec concat (parts.length + todo) i p
        = ⟨serial_trace exec p p.calls parts
            ++ (concatenate_loop os reg exec concat todo (i + parts.length)
                { p with calls := p.calls + parts.length }).acts,
          (concatenate_loop os reg exec concat todo (i + parts.length)
                { p with calls := p.calls + parts.length }).cont⟩ := by
  induction parts with
  | nil => intro i todo p _ _; simp [serial_trace]
  | cons a rest ih =>
    intro i todo p hres hfork
    obtain ⟨name, part⟩ := a
    obtain ⟨hn, hf⟩ := hres 0 name part (by simp)
    rw [Nat.add_zero] at hn
    have hk : sys_ok os p = true := by simpa [sys_ok] using hfork 0 (by simp)
    have hlen : ((name, part) :: rest).length + todo = (rest.length + todo) + 1 := by
      simp; omega
    rw [hlen, concatenate_loop_step _ _ _ _ _ _ _ _ _ hn hf hk]
    have hres1 : ∀ (j : Nat) (nm : List Char) (c : Component), rest[j]? = some (nm, c) →
        concat.part_names[i + 1 + j]? = some nm ∧ find_component reg nm = some c := by
      intro j nm c hj
      have := hres (j + 1) nm c (by simpa using hj)
      rwa [show i + (j + 1) = i + 1 + j by omega] at this
    have hfork1 : ∀ j, j < rest.length → os ((p.tick.calls + j) :: p.tick.pid) = true := by
      intro j hj
      have := hfork (j + 1) (by simpa using hj)
      rwa [show p.calls + (j + 1) = p.calls + 1 + j by omega] at this
    rw [ih (i + 1) todo p.tick hres1 hfork1, serial_trace_tick]
    have hp : ({ p.tick with calls := p.tick.calls + rest.length } : Proc)
        = { p with calls := p.calls + ((name, part) :: rest).length } := by
      simp only [Proc.tick, List.length_cons, Proc.mk.injEq, true_and, and_true]
      omega
    have hi : i + 1 + rest.length = i + ((name, part) :: rest).length := by
      simp; omega
    rw [hp, hi]
    simp [serial_trace, Proc.tick]

theorem concatenate_first_missing (os : OS) (reg : List Component)
    (exec : Proc → Component → Run) (p : Proc) (concat : Concatenate)
    (parts : List (List Char × Component)) (name : List Char)
    (hres : ∀ (i : Nat) (nm : List Char) (part : Component), parts[i]? = some (nm, part) →
      concat.part_names[i]? = some nm ∧ find_component reg nm = some part)
    (hfork : ∀ i, i < parts.length → os ((p.calls + i) :: p.pid) = true)
    (hname : concat.part_names[parts.length]? = some name)
    (hmiss : find_component reg name = none)
    (hk : (parts.length : Int) < concat.parts) :
    execute_concatenate os reg exec p concat
      = ⟨serial_trace exec p p.calls parts
          ++ [.resolve name, .eprint (part_not_found name), .exit 1], none⟩ := by
  obtain ⟨m, hm⟩ : ∃ m, concat.parts.toNat = parts.length + (m + 1) :=
    ⟨concat.parts.toNat - parts.length - 1, by omega⟩
  unfold execute_concatenate
  rw [hm, concatenate_loop_prefix os reg exec concat parts 0 (m + 1) p
    (fun j nm part h => by simpa using hres j nm part h) hfork]
  rw [concatenate_loop_missing _ _ _ _ _ _ _ name (by simpa using hname) hmiss]


theorem children_append (a b : List Act) : children (a ++ b) = children a ++ children b := by
  induction a with
  | nil => rfl
  | cons x a ih => cases x <;> simp [children, ih]

/-! ## Executor: sparse parts, the file variant, part indices -/

/-- C11 as stated fails: the Concatenate `c` declares three parts and has no `part_1` line.
Part 0 is executed, then the empty name left in slot 1 is looked up, `Part '' not found` is
reported and the process exits with status 1; part 2 is never executed. -/
theorem sparse_parts_counterexample :
    main (fun _ => true) 3 ["flow".toList, "f".toList, "c".toList] (some sparse_flow) {}
      = [.resolve "c".toList, .resolve "a".toList,
          .fork 0 [.execvp ["true".toList] [(0, 0), (1, 1), (2, 2)]], .waitpid 0,
          .resolve [], .eprint (part_not_found []), .exit 1] := by
  rfl

/-- C11, amended: an index without a `part_<k>` line is attempted like any other.  A
Concatenate is created with all ten slots empty, so such an index `k` holds the empty name.
When parts `0 .. k-1` resolve (`parts`, forks succeeding) and `k` is below the declared count,
execution runs parts `0 .. k-1` in ascending order and then looks the empty name up: if no
component has it, the process reports the part and exits with status 1, executing no later
part; if a component has it, that component is executed as part `k`. -/
theorem sparse_parts (os : OS) (reg : List Component) (exec : Proc → Component → Run)
    (p : Proc) (concat : Concatenate) (parts : List (List Char × Component))
    (hres : ∀ (i : Nat) (nm : List Char) (part : Component), parts[i]? = some (nm, part) →
      concat.part_names[i]? = some nm ∧ find_component reg nm = some part)
    (hfork : ∀ i, i < parts.length → os ((p.calls + i) :: p.pid) = true)
    (hslot : concat.part_names[parts.length]? = some [])
    (hk : (parts.length : Int) < concat.parts) :
    (∀ (nm : List Char) (k : Nat), k < MAX_PARTS →
        ({ name := nm } : Concatenate).part_names[k]? = some [])
      ∧ (find_component reg [] = none →
        execute_concatenate os reg exec p concat
          = ⟨serial_trace exec p p.calls parts
              ++ [.resolve [], .eprint (part_not_found []), .exit 1], none⟩)
      ∧ (∀ comp, find_component reg [] = some comp →
        os ((p.calls + parts.length) :: p.pid) = true →
        ∃ rest : Run, execute_concatenate os reg exec p concat
          = ⟨serial_trace exec p p.calls parts
              ++ ([.resolve [],
                  .fork (p.calls + parts.length)
                    (child_acts (exec (p.child (p.calls + parts.length)) comp)),
                  .waitpid (p.calls + parts.length)] ++ rest.acts), rest.cont⟩) := by
  refine ⟨fun nm k hk => ?_, fun hmiss => ?_, fun comp hfound hok => ?_⟩
  · show (List.replicate MAX_PARTS ([] : List Char))[k]? = some []
    simp [List.getElem?_replicate, hk]
  · exact concatenate_first_missing os reg exec p concat parts [] hres hfork hslot hmiss hk
  · obtain ⟨m, hm⟩ : ∃ m, concat.parts.toNat = parts.length + (m + 1) :=
      ⟨concat.parts.toNat - parts.length - 1, by omega⟩
    unfold execute_concatenate
    rw [hm, concatenate_loop_prefix os reg exec concat parts 0 (m + 1) p
      (fun j nm part h => by simpa using hres j nm part h) hfork]
    rw [concatenate_loop_step _ _ _ _ _ _ _ [] comp (by simpa using hslot) hfound
      (by simpa [sys_ok] using hok)]
    exact ⟨_, rfl⟩

/-- Witness of C11: slot 1 of the sample was never assigned and no sample component has the
empty name: the process ends inside `execute_concatenate`. -/
theorem sparse_parts_witness :
    (execute_concatenate (fun _ => true) sample_registry
        (execute_component (fun _ => true) sample_registry 1) {} sample_concat_sparse).cont
      = none :=
  congrArg Run.cont
    ((sparse_parts (fun _ => true) sample_registry
      (execute_component (fun _ => true) sample_registry 1) {} sample_concat_sparse
      [("one".toList, .node { name := "one".toList, command := "printf 1".toList })]
      (fun i nm part h => by
        rcases i with _ | i <;> simp at h
        obtain ⟨rfl, rfl⟩ := h
        decide)
      (fun _ _ => rfl) rfl (by decide)).2.1 (by decide))

theorem concatenate_loop_eprint_msg (os : OS) (reg : List Component)
    (exec : Proc → Component → Run) (concat : Concatenate) :
    ∀ (todo i : Nat) (p : Proc) (msg : List Char),
      Act.eprint msg ∈ (concatenate_loop os reg exec concat todo i p).acts →
      ∃ name, msg = part_not_found name := by
  intro todo
  induction todo with
  | zero => intro i p msg h; simp [concatenate_loop] at h
  | succ k ih =>
    intro i p msg h
    cases hn : concat.part_names[i]? with
    | none =>
      rw [concatenate_loop_oob _ _ _ _ _ _ _ hn] at h
      simp at h
    | some nm =>
      cases hf : find_component reg nm with
      | none =>
        rw [concatenate_loop_missing _ _ _ _ _ _ _ _ hn hf] at h
        simp at h
        exact ⟨nm, h⟩
      | some part =>
        cases hk : sys_ok os p with
        | false =>
          rw [concatenate_loop_fork_failed _ _ _ _ _ _ _ _ _ hn hf hk] at h
          simp at h
        | true =>
          rw [concatenate_loop_step _ _ _ _ _ _ _ _ _ hn hf hk] at h
          simp only [List.mem_append, List.mem_cons, List.mem_singleton,
            reduceCtorEq, false_or, List.not_mem_nil, or_false] at h
          exact ih (i + 1) p.tick msg h

theorem unknown_type_not_other (name : List Char) :
    "Error: Unknown component type\n".toList ≠ part_not_found name
      ∧ "Error: Unknown component type\n".toList ≠ component_not_found name
      ∧ "Error: Unknown component type\n".toList
          ≠ "Error: stderr can only be applied to nodes\n".toList := by
  refine ⟨?_, ?_, by decide⟩
  · intro h
    simp [part_not_found] at h
  · intro h
    simp [component_not_found] at h


/-- C18 as stated fails: with a `file` component as the target, `main` calls the executor on
it and the "unknown type" branch is taken. -/
theorem file_target_counterexample :
    main (fun _ => true) 3 ["flow".toList, "f".toList, "F".toList]
        (some "file=F\nname=out.txt\n".toList) {}
      = [.resolve "F".toList, .eprint "Error: Unknown component type\n".toList, .exit 1] := by
  rfl

/-- C18, amended: FileRedirect is never interpreted.  Whenever the executor is invoked on a
FileRedirect component it takes the "unknown type" branch: it prints the diagnostic and the
process exits with status 1, nothing being spawned.  A Pipe endpoint that is a FileRedirect
is handed to the executor, and only a FileRedirect makes the executing process take that
branch. -/
theorem file_reaches_unknown_type (os : OS) (reg : List Component) (depth : Nat) (p : Proc)
    (f : File) :
    execute_component os reg (depth + 1) p (.file f)
        = ⟨[.eprint "Error: Unknown component type\n".toList, .exit 1], none⟩
      ∧ (∀ exec : Proc → Component → Run,
        execute_endpoint os exec p (.file f) = exec p (.file f))
      ∧ (∀ comp : Component,
        Act.eprint "Error: Unknown component type\n".toList
            ∈ (execute_component os reg (depth + 1) p comp).acts →
        ∃ g, comp = .file g) := by
  refine ⟨rfl, fun _ => rfl, fun comp h => ?_⟩
  cases comp with
  | file g => exact ⟨g, rfl⟩
  | node n =>
    simp only [execute_component, execute_node] at h
    split_ifs at h <;> simp at h
  | concat c =>
    simp only [execute_component, execute_concatenate] at h
    obtain ⟨name, hname⟩ := concatenate_loop_eprint_msg os reg _ c _ 0 p _ h
    exact absurd hname (unknown_type_not_other name).1
  | stderr e =>
    simp only [execute_component] at h
    unfold execute_stderr at h
    cases hf : find_component reg e.from_ with
    | none =>
      simp only [hf] at h
      simp at h
      exact absurd h (unknown_type_not_other _).2.1
    | some c =>
      cases c with
      | node n =>
        simp only [hf] at h
        cases hk : sys_fork os p with
        | none => simp [hk] at h
        | some r => simp [hk] at h
      | pipe x => simp [hf] at h
      | concat x => simp [hf] at h
      | stderr x => simp [hf] at h
      | file x => simp [hf] at h
  | pipe pc =>
    simp only [execute_component] at h
    unfold execute_pipe at h
    cases hf : find_component reg pc.from_ with
    | none =>
      simp only [hf] at h
      simp at h
      exact absurd h (unknown_type_not_other _).2.1
    | some fc =>
      cases ht : find_component reg pc.to_ with
      | none =>
        simp only [hf, ht] at h
        simp at h
        exact absurd h (unknown_type_not_other _).2.1
      | some tc =>
        simp only [hf, ht] at h
        cases hp : sys_pipe os p with
        | none => simp [hp] at h
        | some r =>
          obtain ⟨r, w, p1⟩ := r
          simp only [hp] at h
          cases h1 : sys_fork os p1 with
          | none => simp [h1] at h
          | some r1 =>
            obtain ⟨pid1, c1, p2⟩ := r1
            simp only [h1] at h
            cases h2 : sys_fork os p2 with
            | none => simp [h2] at h
            | some r2 =>
              obtain ⟨pid2, c2, p3⟩ := r2
              simp [h2] at h

/-- Witness of C18: a process that prints the "unknown type" diagnostic was executing a
FileRedirect. -/
theorem file_reaches_unknown_type_witness :
    ∃ g, Component.file { name := "F".toList, filename := "out.txt".toList } = .file g :=
  (file_reaches_unknown_type (fun _ => true) [] 0 {} {}).2.2
    (.file { name := "F".toList, filename := "out.txt".toList })
    (show Act.eprint "Error: Unknown component type\n".toList
        ∈ [Act.eprint "Error: Unknown component type\n".toList, .exit 1] from by simp)

set_option maxRecDepth 1000000 in
/-- C19, the code at the failing input: the Concatenate `c` declares eleven parts and all
ten slots name the Node `a`.  After ten children the loop reads `part_names[10]`, outside
the array. -/
theorem part_index_out_of_bounds :
    (main (fun _ => true) 3 ["flow".toList, "f".toList, "c".toList]
        (some eleven_parts_flow) {}).getLast? = some (.out_of_bounds 10)
      ∧ (children (main (fun _ => true) 3 ["flow".toList, "f".toList, "c".toList]
        (some eleven_parts_flow) {})).length = 10 := by
  constructor <;> rfl

/-! ## Lines of the flow file -/

theorem parse_lines_line (st : ParseState) (l rest : List Char) (hl : fits_buffer l) :
    parse_lines (l ++ '\n' :: rest).length st (l ++ '\n' :: rest)
      = (process_line st l).bind (fun st1 => parse_lines rest.length st1 rest) := by
  rw [← process_line_newline st l hl.1 hl.2.1]
  have hlen1 : (l ++ '\n' :: rest).length = (l.length + rest.length) + 1 := by simp; omega
  by_cases hlen : l.length < 1023
  · rw [hlen1, parse_lines_step _ st _ (l ++ ['\n']) rest
      (fgets_short l 1023 _ hl.1 hlen) (by simp) (by omega)]
  · have hfull : l.length = 1023 := by have := hl.2.2; omega
    rw [hlen1, parse_lines_step _ st _ l ('\n' :: rest)
      (fgets_full l 1023 _ hl.1 hfull) (by intro h; simp [h] at hfull) (by simp; omega)]
    rw [process_line_newline st l hl.1 hl.2.1]
    congr 1

theorem parse_lines_last (st : ParseState) (l : List Char) (hl : fits_buffer l) :
    parse_lines l.length st l = process_line st l := by
  cases l with
  | nil => simp [parse_lines, process_line, line_text, cstr]
  | cons c t =>
    rw [List.length_cons, parse_lines_step t.length st (c :: t) (c :: t) []
      (fgets_last _ _ hl.1 hl.2.2) (by simp) (by simp)]
    cases process_line st (c :: t) <;> simp [parse_lines]


set_option maxRecDepth 1000000 in
/-- C5 as stated fails for lines longer than the buffer.  The first line has a key outside
the grammar, the second the attribute key `command` before any component was started; each
is handed over by `fgets` in two pieces, and its tail `node=...` stores a Node. -/
theorem line_no_effect_counterexample :
    (in_grammar (line_key (List.replicate 1023 'x' ++ "node=A".toList)) = false
        ∧ parse_flow_text (List.replicate 1023 'x' ++ "node=A\n".toList)
          = some { components := [.node { name := "A".toList }], current := some 0 })
      ∧ (is_attribute_key
            (line_key ("command=".toList ++ List.replicate 1015 'y' ++ "node=B".toList)) = true
        ∧ parse_flow_text ("command=".toList ++ List.replicate 1015 'y' ++ "node=B\n".toList)
          = some { components := [.node { name := "B".toList }], current := some 0 }) := by
  refine ⟨⟨?_, ?_⟩, ?_, ?_⟩ <;> decide

/-- C5, amended: lines with no effect.  Let `l` be a line of the flow file of at most 1023
characters that is blank, has no `=`, has a key outside the grammar, or has an attribute key
that does not apply to the type of the cursor component or comes before any component was
started.  Then the parser goes on after `l` and its newline with the registry, every stored
component and the cursor as they were, and ends with them unchanged when `l` is the last
line and has no newline; no error is raised. -/
theorem line_no_effect (st : ParseState) (l rest : List Char) (hfit : fits_buffer l)
    (h : l = [] ∨ '=' ∉ l ∨ in_grammar (l.takeWhile (fun c => c != '=')) = false
      ∨ (is_attribute_key (l.takeWhile (fun c => c != '=')) = true ∧
          ∀ c, st.cursor = some c →
            attribute_applies (l.takeWhile (fun c => c != '=')) c.type = false)) :
    parse_lines (l ++ '\n' :: rest).length st (l ++ '\n' :: rest)
        = parse_lines rest.length st rest
      ∧ parse_lines l.length st l = some st := by
  have ht := (line_text_eq l hfit.1 hfit.2.1).1
  have hp : process_line st l = some st := by
    apply process_line_unchanged
    simp only [line_key, ht]
    exact h
  rw [parse_lines_line st l rest hfit, parse_lines_last st l hfit, hp]
  exact ⟨rfl, rfl⟩

/-- Witness of C5: a `command` line met while the cursor is a Pipe changes nothing. -/
theorem line_no_effect_witness :
    parse_lines ("command=ls".toList ++ '\n' :: "to=b\n".toList).length after_pipe_line
        ("command=ls".toList ++ '\n' :: "to=b\n".toList)
        = parse_lines "to=b\n".toList.length after_pipe_line "to=b\n".toList
      ∧ parse_lines "command=ls".toList.length after_pipe_line "command=ls".toList
        = some after_pipe_line :=
  line_no_effect after_pipe_line "command=ls".toList "to=b\n".toList (by decide)
    (Or.inr (Or.inr (Or.inr ⟨by decide, by decide⟩)))

theorem part_line_clean (ds v : List Char) (hds : ∀ d ∈ ds, isdigit d = true)
    (hv : '\n' ∉ v ∧ NUL ∉ v) :
    '\n' ∉ "part_".toList ++ ds ++ '=' :: v ∧ NUL ∉ "part_".toList ++ ds ++ '=' :: v := by
  have hsp : ∀ d ∈ ds, d ≠ '=' ∧ d ≠ '\n' ∧ d ≠ NUL := fun d hd =>
    (isdigit_not_special d (hds d hd)).2.2.2
  have hline : ∀ x : Char, x ∉ "part_=".toList → (∀ d ∈ ds, d ≠ x) → x ∉ v →
      x ∉ "part_".toList ++ ds ++ '=' :: v := by
    intro x hx hd hxv h
    simp only [List.mem_append, List.mem_cons] at h
    rcases h with (h | h) | h | h
    · exact hx (List.mem_of_mem_take (n := 5) h)
    · exact hd x h rfl
    · exact hx (by rw [h]; decide)
    · exact hxv h
  exact ⟨hline _ (by decide) (fun d hd => (hsp d hd).2.1) hv.1,
    hline _ (by decide) (fun d hd => (hsp d hd).2.2) hv.2⟩

set_option maxRecDepth 1000000 in
/-- C16 as stated fails for a value longer than 255 characters, which is stored cut to 255,
and for a number beyond the range of `int`: `atoi` (glibc) turns `4294967296` into `0`, and
the line sets slot 0. -/
theorem part_assignment_counterexample :
    parse_flow_text ("concatenate=c\npart_0=".toList ++ List.replicate 256 'x' ++ ['\n'])
        = some { components := [fresh_concat_with 0 (List.replicate 255 'x')],
                 current := some 0 }
      ∧ parse_flow_text "concatenate=c\npart_4294967296=v\n".toList
        = some { components := [fresh_concat_with 0 "v".toList], current := some 0 } := by
  constructor <;> decide

/-- C16, amended: part assignment.  Let the cursor be a Concatenate, `ds` a non-empty string
of decimal digits writing the number `k` (at most 2147483647) and `v` a value, the line
`part_<ds>=v` being at most 1023 characters long.  When `k` is at most 9 the parser goes on
after that line (or ends, if it is the last line and has no newline) with the part name at
index `k` set to `v` cut to 255 characters and every other slot, the declared count, the name
and every other component as they were; when `k` is 10 or more it goes on with nothing
changed at all. -/
theorem part_assignment (st : ParseState) (c : Concatenate) (ds v rest : List Char)
    (hcur : st.cursor = some (.concat c)) (hne : ds ≠ [])
    (hds : ∀ d ∈ ds, isdigit d = true) (hv : '\n' ∉ v ∧ NUL ∉ v)
    (hk : digits_value ds < 2 ^ 31)
    (hfit : ("part_".toList ++ ds ++ '=' :: v).length ≤ 1023) :
    parse_lines (("part_".toList ++ ds ++ '=' :: v) ++ '\n' :: rest).length st
          (("part_".toList ++ ds ++ '=' :: v) ++ '\n' :: rest)
        = parse_lines rest.length
            (if digits_value ds < MAX_PARTS then
              st.store (.concat { c with
                part_names := c.part_names.set (digits_value ds) (v.take 255) })
            else st) rest
      ∧ parse_lines ("part_".toList ++ ds ++ '=' :: v).length st
          ("part_".toList ++ ds ++ '=' :: v)
        = some (if digits_value ds < MAX_PARTS then
              st.store (.concat { c with
                part_names := c.part_names.set (digits_value ds) (v.take 255) })
            else st)
      ∧ (∀ j : Nat, j ≠ digits_value ds →
          (c.part_names.set (digits_value ds) (v.take 255))[j]? = c.part_names[j]?)
      ∧ (digits_value ds < c.part_names.length →
          (c.part_names.set (digits_value ds) (v.take 255))[digits_value ds]?
            = some (v.take 255)) := by
  have hclean := part_line_clean ds v hds hv
  have hl : fits_buffer ("part_".toList ++ ds ++ '=' :: v) := ⟨hclean.1, hclean.2, hfit⟩
  have hp := process_line_part st c ds v hcur hne hds hv hk
  refine ⟨?_, ?_, fun j hj => ?_, fun hlt => ?_⟩
  · rw [parse_lines_line st _ rest hl, hp]
    rfl
  · rw [parse_lines_last st _ hl, hp]
    rfl
  · simp [List.getElem?_set, Ne.symm hj]
  · simp [List.getElem?_set, hlt]

/-- Witness of C16: the line `part_3=x` after `concatenate=c`, as the last line. -/
theorem part_assignment_witness :
    parse_lines "part_3=x".toList.length after_concatenate_line "part_3=x".toList
      = some { components := [fresh_concat_with 3 "x".toList], current := some 0 } :=
  (part_assignment after_concatenate_line { name := "c".toList } "3".toList "x".toList []
    rfl (by decide) (by decide) (by decide) (by decide) (by decide)).2.1

theorem fits_key_value (k v : List Char) (hk : '\n' ∉ k ∧ NUL ∉ k) (hv : '\n' ∉ v ∧ NUL ∉ v)
    (hlen : (k ++ '=' :: v).length ≤ 1023) : fits_buffer (k ++ '=' :: v) :=
  ⟨(clean_line k v hk hv).1, (clean_line k v hk hv).2, hlen⟩

theorem parse_pipe_description (n v w : List Char)
    (hn : '\n' ∉ n ∧ NUL ∉ n) (hv : '\n' ∉ v ∧ NUL ∉ v) (hw : '\n' ∉ w ∧ NUL ∉ w)
    (hln : ("pipe".toList ++ '=' :: n).length ≤ 1023)
    (hlv : ("from".toList ++ '=' :: v).length ≤ 1023)
    (hlw : ("to".toList ++ '=' :: w).length ≤ 1023) :
    parse_flow_text (("pipe".toList ++ '=' :: n) ++ '\n' ::
        (("from".toList ++ '=' :: v) ++ '\n' :: (("to".toList ++ '=' :: w) ++ ['\n'])))
      = some { components := [stored_pipe n v w], current := some 0 } := by
  have h1 : process_line {} ("pipe".toList ++ '=' :: n)
      = some { components := [.pipe { name := n.take 255 }], current := some 0 } := by
    rw [process_line_key_value _ _ n (by decide) (clean_line _ n (by decide) hn)]
    unfold apply_key
    rw [if_neg (by decide), if_neg (by decide), if_pos rfl]
    rfl
  have h2 : process_line { components := [.pipe { name := n.take 255 }], current := some 0 }
      ("from".toList ++ '=' :: v)
      = some { components := [.pipe { name := n.take 255, from_ := v.take 255 }],
               current := some 0 } :=
    (process_line_from_to ⟨[.pipe { name := n.take 255 }], some 0⟩ { name := n.take 255 } v rfl
      hv).1
  have h3 : process_line
      { components := [.pipe { name := n.take 255, from_ := v.take 255 }], current := some 0 }
      ("to".toList ++ '=' :: w)
      = some { components := [stored_pipe n v w], current := some 0 } :=
    (process_line_from_to ⟨[.pipe { name := n.take 255, from_ := v.take 255 }], some 0⟩
      { name := n.take 255, from_ := v.take 255 } w rfl hw).2
  have e3 : ("to".toList ++ '=' :: w) ++ ['\n'] = ("to".toList ++ '=' :: w) ++ '\n' :: [] := rfl
  unfold parse_flow_text
  rw [parse_lines_line _ _ _ (fits_key_value _ n (by decide) hn hln), h1]
  simp only [Option.some_bind]
  rw [parse_lines_line _ _ _ (fits_key_value _ v (by decide) hv hlv), h2]
  simp only [Option.some_bind]
  rw [e3, parse_lines_line _ _ _ (fits_key_value _ w (by decide) hw hlw), h3]
  rfl


set_option maxRecDepth 1000000 in
/-- C17 as stated fails for a reference longer than 255 characters: the description `pipe=p`,
`from=` followed by 256 letters `x` is parsed, and the reference is stored cut to 255
characters, not unchanged. -/
theorem lazy_resolution_counterexample :
    parse_flow_text ("pipe=p\nfrom=".toList ++ List.replicate 256 'x' ++ ['\n'])
      = some { components := [.pipe { name := "p".toList, from_ := List.replicate 255 'x' }],
               current := some 0 } := by
  decide

/-- C17, amended: lazy resolution.  Parsing: a description whose lines are at most 1023
characters long (no NUL) and which starts at most 100 components is parsed with success
whatever its references name; the description `pipe=n`, `from=v`, `to=w` stores exactly that
Pipe, each value cut to 255 characters; and wherever a line `from=v`, `to=v` (cursor a Pipe)
or `part_<k>=v` (cursor a Concatenate, `k` at most 9) of at most 1023 characters stands in a
description, the parser goes on after it with `v`, cut to 255 characters, stored and nothing
looked up.  Execution: a Concatenate whose parts `0 .. k-1` resolve (`parts`, of length `k`,
forks succeeding) and whose part `k`, below the declared count, names no component first
runs parts `0 .. k-1` in order, each child collected before the next lookup, then looks up
part `k`, reports it and exits with status 1; it has spawned `k` children, none for part `k`
or later. -/
theorem lazy_resolution (os : OS) (reg : List Component) (exec : Proc → Component → Run)
    (p : Proc) (concat : Concatenate) (parts : List (List Char × Component))
    (name : List Char)
    (hres : ∀ (i : Nat) (nm : List Char) (part : Component), parts[i]? = some (nm, part) →
      concat.part_names[i]? = some nm ∧ find_component reg nm = some part)
    (hfork : ∀ i, i < parts.length → os ((p.calls + i) :: p.pid) = true)
    (hname : concat.part_names[parts.length]? = some name)
    (hmiss : find_component reg name = none)
    (hk : (parts.length : Int) < concat.parts) :
    (∀ (lines : List (List Char)) (last : List Char),
        (∀ l ∈ lines ++ [last], fits_buffer l) →
        ((lines ++ [last]).filterMap header_of_line).length ≤ MAX_COMPONENTS →
        ∃ st, parse_flow_text (unlines lines ++ last) = some st)
      ∧ (∀ n v w : List Char, ('\n' ∉ n ∧ NUL ∉ n) → ('\n' ∉ v ∧ NUL ∉ v) →
        ('\n' ∉ w ∧ NUL ∉ w) → ("pipe".toList ++ '=' :: n).length ≤ 1023 →
        ("from".toList ++ '=' :: v).length ≤ 1023 → ("to".toList ++ '=' :: w).length ≤ 1023 →
        parse_flow_text (("pipe".toList ++ '=' :: n) ++ '\n' ::
            (("from".toList ++ '=' :: v) ++ '\n' :: (("to".toList ++ '=' :: w) ++ ['\n'])))
          = some { components := [stored_pipe n v w], current := some 0 })
      ∧ (∀ (st : ParseState) (pc : Pipe) (v rest : List Char),
        st.cursor = some (.pipe pc) → ('\n' ∉ v ∧ NUL ∉ v) →
        (("from".toList ++ '=' :: v).length ≤ 1023 →
          parse_lines (("from".toList ++ '=' :: v) ++ '\n' :: rest).length st
              (("from".toList ++ '=' :: v) ++ '\n' :: rest)
            = parse_lines rest.length (st.store (.pipe { pc with from_ := v.take 255 })) rest)
        ∧ (("to".toList ++ '=' :: v).length ≤ 1023 →
          parse_lines (("to".toList ++ '=' :: v) ++ '\n' :: rest).length st
              (("to".toList ++ '=' :: v) ++ '\n' :: rest)
            = parse_lines rest.length (st.store (.pipe { pc with to_ := v.take 255 })) rest))
      ∧ (∀ (st : ParseState) (c : Concatenate) (ds v rest : List Char),
        st.cursor = some (.concat c) → ds ≠ [] → (∀ d ∈ ds, isdigit d = true) →
        ('\n' ∉ v ∧ NUL ∉ v) → digits_value ds < MAX_PARTS →
        ("part_".toList ++ ds ++ '=' :: v).length ≤ 1023 →
        parse_lines (("part_".toList ++ ds ++ '=' :: v) ++ '\n' :: rest).length st
            (("part_".toList ++ ds ++ '=' :: v) ++ '\n' :: rest)
          = parse_lines rest.length (st.store (.concat { c with
              part_names := c.part_names.set (digits_value ds) (v.take 255) })) rest)
      ∧ execute_concatenate os reg exec p concat
          = ⟨serial_trace exec p p.calls parts
              ++ [.resolve name, .eprint (part_not_found name), .exit 1], none⟩
      ∧ exit_status (execute_concatenate os reg exec p concat).acts = some 1
      ∧ (children (execute_concatenate os reg exec p concat).acts).length = parts.length := by
  have hrun := concatenate_first_missing os reg exec p concat parts name hres hfork hname
    hmiss hk
  refine ⟨?_, ?_, ?_, ?_, hrun, ?_, ?_⟩
  · intro lines last hfit hcount
    have h1 : ∀ l ∈ lines, fits_buffer l := fun l hl => hfit l (by simp [hl])
    have h2 : fits_buffer last := hfit last (by simp)
    obtain ⟨st, hst, _⟩ := process_lines_headers (lines ++ [last]) {} hfit
      (by simpa using hcount)
    refine ⟨st, ?_⟩
    unfold parse_flow_text
    rw [parse_lines_unlines lines {} last h1 h2]
    exact hst
  · intro n v w hn hv hw hln hlv hlw
    exact parse_pipe_description n v w hn hv hw hln hlv hlw
  · intro st pc v rest hcur hv
    obtain ⟨hf, ht⟩ := process_line_from_to st pc v hcur hv
    constructor
    · intro hlen
      rw [parse_lines_line st _ rest (fits_key_value _ v (by decide) hv hlen), hf]
      rfl
    · intro hlen
      rw [parse_lines_line st _ rest (fits_key_value _ v (by decide) hv hlen), ht]
      rfl
  · intro st c ds v rest hcur hne hds hv hlt hlen
    have hclean := part_line_clean ds v hds hv
    have h := process_line_part st c ds v hcur hne hds hv
      (Nat.lt_of_lt_of_le hlt (by decide))
    rw [if_pos hlt] at h
    rw [parse_lines_line st _ rest ⟨hclean.1, hclean.2, hlen⟩, h]
    rfl
  · rw [hrun]
    simp only
    rw [exit_status_append _ _ (by simp)]
    rfl
  · rw [hrun]
    simp only
    rw [children_append, List.length_append, children_serial_trace]
    rfl

/-- Witness of C17: part 1 of the sample names no component; part 0 is run, then the process
exits with status 1, having spawned one child. -/
theorem lazy_resolution_witness :
    exit_status (execute_concatenate (fun _ => true) sample_registry
        (execute_component (fun _ => true) sample_registry 1) {} sample_concat_missing).acts
        = some 1
      ∧ (children (execute_concatenate (fun _ => true) sample_registry
        (execute_component (fun _ => true) sample_registry 1) {}
        sample_concat_missing).acts).length = 1 :=
  (lazy_resolution (fun _ => true) sample_registry
    (execute_component (fun _ => true) sample_registry 1) {} sample_concat_missing
    [("one".toList, .node { name := "one".toList, command := "printf 1".toList })]
    "zzz".toList
    (fun i nm part h => by
      rcases i with _ | i <;> simp at h
      obtain ⟨rfl, rfl⟩ := h
      decide)
    (fun _ _ => rfl) rfl (by decide) (by decide)).2.2.2.2.2

end Flow
